import Mathlib

/-!
Verification development for the LLM-based game-design planning workflow.

The first part embeds the JavaScript UI helpers that live in the repository
(`generateDummyPlan.js`, the plan-list handlers of the main `App` component).
The second part models the document-to-graph pipeline (parser, extractor,
upsert engine, Graph-RAG retriever, clear operation); the Python tool that
implements that pipeline is not part of the checked-in sources, so those
definitions are modelled from the specification, as marked in their
doc comments.
-/

namespace GameDesign

/-! ### Generic list utilities -/

/-- Append `a` to `l` unless it is already present (order-preserving set insert). -/
def insertIfAbsent {α : Type} [DecidableEq α] (l : List α) (a : α) : List α :=
  if a ∈ l then l else l ++ [a]

/-- Order-preserving union: extend `l` with the members of `bs` not already present. -/
def unionAppend {α : Type} [DecidableEq α] (l bs : List α) : List α :=
  bs.foldl insertIfAbsent l

/-- Keep the first element for each key, dropping later elements whose key
was already seen (`seen` records keys already taken). -/
def dedupByKeyAux {α β : Type} [DecidableEq β] (key : α → β) (seen : List β) :
    List α → List α
  | [] => []
  | a :: as =>
    if key a ∈ seen then dedupByKeyAux key seen as
    else a :: dedupByKeyAux key (key a :: seen) as

/-- Keep the first element for each key. -/
def dedupByKey {α β : Type} [DecidableEq β] (key : α → β) (l : List α) : List α :=
  dedupByKeyAux key [] l

/-- Order-preserving deduplication keeping first occurrences. -/
def dedupKeep {α : Type} [DecidableEq α] (l : List α) : List α :=
  dedupByKey id l

/-- Boolean test that `s` is a prefix of `l` (over character lists). -/
def charsIsPref : List Char → List Char → Bool
  | [], _ => true
  | _ :: _, [] => false
  | a :: as, b :: bs => a == b && charsIsPref as bs

/-- Boolean test that `sub` occurs contiguously inside `l`. -/
def charsContains (sub : List Char) : List Char → Bool
  | [] => charsIsPref sub []
  | b :: bs => charsIsPref sub (b :: bs) || charsContains sub bs

/-- JavaScript `String.prototype.includes`: substring containment. -/
def jsIncludes (s pat : String) : Bool :=
  charsContains pat.data s.data

/-! ### `generateDummyPlan` (src/webTest/progress/generateDummyPlan.js) -/

/-- A flip-book page record `{ title, text }` as produced by `generateDummyPlan`. -/
structure Page where
  title : String
  text : String
deriving DecidableEq

/-- The trigger substring checked by `generateDummyPlan` via `prompt.includes`. -/
def darkFantasyKey : String := "다크 판타지"

/-- The five-page dark-fantasy plan returned on the matching branch. -/
def darkFantasyPages : List Page :=
  [ ⟨"개요", "다크 판타지 게임: 왕국 확장과 전투 중심의 RPG"⟩,
    ⟨"세계관", "마법과 기술이 혼합된 세상에서 왕국 간 전투"⟩,
    ⟨"주요 기능", "게임 내 전투, 자원 관리, 퀘스트 및 스토리라인"⟩,
    ⟨"타임라인", "1단계: 기획 / 2단계: 디자인 / 3단계: 구현"⟩,
    ⟨"팀 소개", "기획: 홍길동 / 개발: 김철수 / 아트: 이영희"⟩ ]

/-- The single default page returned on the non-matching branch. -/
def defaultPages : List Page :=
  [ ⟨"기본 기획서", "기본적인 게임 기획서 내용이 들어갑니다."⟩ ]

/-- `generateDummyPlan` from src/webTest/progress/generateDummyPlan.js: returns the
five dark-fantasy pages when the prompt contains "다크 판타지", else the default page. -/
def generateDummyPlan (prompt : String) : List Page :=
  if jsIncludes prompt darkFantasyKey then darkFantasyPages else defaultPages

/-! ### Plan-list handlers (src/unnamed/part_001, the main `App` component) -/

/-- `worldBuilding` sub-object of a plan. -/
structure WorldBuilding where
  overview : String
  factions : List String
  locations : List String
  history : String
deriving DecidableEq

/-- `characters` sub-object of a plan. -/
structure CharactersInfo where
  mainCharacters : List String
  npcs : List String
  relationships : List String
deriving DecidableEq

/-- `story` sub-object of a plan. -/
structure StoryInfo where
  mainPlot : String
  subplots : List String
  quests : List String
deriving DecidableEq

/-- `gameMechanics` sub-object of a plan. -/
structure GameMechanics where
  coreLoop : String
  progression : String
  combat : String
  exploration : String
deriving DecidableEq

/-- `visualStyle` sub-object of a plan. -/
structure VisualStyle where
  artDirection : String
  keyVisuals : List String
deriving DecidableEq

/-- A game-plan record as stored in the `plans` state of the `App` component.
`id` is the `Date.now()` millisecond stamp; the date fields hold ISO strings. -/
structure Plan where
  id : Nat
  title : String
  createdAt : String
  updatedAt : String
  genre : String
  setting : String
  theme : String
  worldBuilding : WorldBuilding
  characters : CharactersInfo
  story : StoryInfo
  gameMechanics : GameMechanics
  visualStyle : VisualStyle
  additionalNotes : String
deriving DecidableEq

/-- `handleFormSubmit` from src/unnamed/part_001 (lines 55-67), as the update it
performs on the `plans` list. With a selected id it maps over the list replacing
the plan whose id matches by `planData` with a fresh `updatedAt`; otherwise it
appends `planData` with a fresh id and `createdAt`. `now` stands for
`new Date().toISOString()` and `newId` for `Date.now()`. -/
def handleFormSubmit (plans : List Plan) (selectedPlanId : Option Nat)
    (planData : Plan) (now : String) (newId : Nat) : List Plan :=
  match selectedPlanId with
  | some sid =>
      plans.map (fun plan =>
        if plan.id = sid then { planData with updatedAt := now } else plan)
  | none => plans ++ [{ planData with id := newId, createdAt := now }]

/-- `handleDeletePlan` from src/unnamed/part_001 (lines 127-131): when the
`window.confirm` dialog is accepted it filters out the plans whose id equals
`planId`; otherwise the list is untouched. -/
def handleDeletePlan (plans : List Plan) (planId : Nat) (confirmed : Bool) :
    List Plan :=
  if confirmed then plans.filter (fun plan => plan.id != planId) else plans

/-! ### Document-to-graph pipeline: data model

Modelled from the spec: the Python pipeline (`chapter_to_knowledge_graph.py`
and the redesigned extraction/upsert engine of the spec) is not among the
checked-in sources, so everything from here on is a model of the
specification's data model (section 3), component contracts (section 4) and
external interfaces (section 6). -/

/-- Strip leading and trailing whitespace from a character list. -/
def trimChars (l : List Char) : List Char :=
  ((l.dropWhile Char.isWhitespace).reverse.dropWhile Char.isWhitespace).reverse

/-- Trim a string (whitespace at both ends). -/
def strTrim (s : String) : String := ⟨trimChars s.data⟩

/-- ASCII lower-casing of one character. -/
def lowerChar (c : Char) : Char :=
  if 65 ≤ c.toNat ∧ c.toNat ≤ 90 then Char.ofNat (c.toNat + 32) else c

/-- String normalization for free-text attribute values: trimming, per the
Extractor contract of spec section 4.2. -/
def normString (s : String) : String := strTrim s

/-- Name normalization for Character and Location natural keys: trim and
case-fold, per the deduplication invariant of spec section 3. -/
def normName (s : String) : String := ⟨(trimChars s.data).map lowerChar⟩

/-- Modelled from the spec: a chapter record as produced by the Document
Parser / extraction schema (`{number, title, goals[], locations[], events[],
challenges[]}` plus the free-text summary). -/
structure ChapterRec where
  number : Nat
  title : String
  summary : String
  goals : List String
  locations : List String
  events : List String
  challenges : List String
deriving DecidableEq

/-- Modelled from the spec: a character record `{name, role, traits[]}` of the
extraction schema. -/
structure CharacterRec where
  name : String
  role : String
  traits : List String
deriving DecidableEq

/-- Modelled from the spec: a participation record `{character, event}` of the
extraction schema. -/
structure Participation where
  character : String
  event : String
deriving DecidableEq

/-- Modelled from the spec: a whole extraction result for one game. -/
structure ExtractionResult where
  game : String
  chapters : List ChapterRec
  characters : List CharacterRec
  participations : List Participation
deriving DecidableEq

/-- Modelled from the spec: natural keys of the graph nodes (spec section 3).
Every entity is keyed inside its owning game. -/
inductive NodeId where
  | game (title : String)
  | chapter (game : String) (number : Nat)
  | goal (game : String) (chapter : Nat) (description : String)
  | location (game : String) (name : String)
  | event (game : String) (chapter : Nat) (description : String)
  | challenge (game : String) (chapter : Nat) (description : String)
  | character (game : String) (name : String)
deriving DecidableEq

/-- The game a node key belongs to. -/
def NodeId.gameOf : NodeId → String
  | .game t => t
  | .chapter g _ => g
  | .goal g _ _ => g
  | .location g _ => g
  | .event g _ _ => g
  | .challenge g _ _ => g
  | .character g _ => g

/-- Modelled from the spec: a property-graph node: a natural key plus the
mutable attributes of spec section 3 (unused attributes stay `""`/`[]`). -/
structure Node where
  id : NodeId
  title : String := ""
  summary : String := ""
  description : String := ""
  role : String := ""
  traits : List String := []
deriving DecidableEq

/-- Modelled from the spec: the directed, typed relationships of spec section 3. -/
inductive EdgeType where
  | HAS_CHAPTER
  | HAS_CHARACTER
  | HAS_GOAL
  | TAKES_PLACE_AT
  | CONTAINS_EVENT
  | PRESENTS_CHALLENGE
  | FOLLOWED_BY
  | PARTICIPATES_IN
  | LOCATED_ON
deriving DecidableEq

/-- Modelled from the spec: a directed typed edge between two node keys. -/
structure Edge where
  src : NodeId
  type : EdgeType
  dst : NodeId
deriving DecidableEq

/-- Modelled from the spec: the property graph owned by the Upsert Engine. -/
structure Graph where
  nodes : List Node
  edges : List Edge
deriving DecidableEq

/-- The empty graph store. -/
def emptyGraph : Graph := ⟨[], []⟩

/-- Modelled from the spec: the error taxonomy of spec section 7. -/
inductive PipelineError where
  | ParseError (msg : String)
  | ExtractionSchemaError (msg : String)
  | UpsertConflictError (msg : String)
  | UpdateError (msg : String)
deriving DecidableEq

/-! ### Document Parser

Modelled from the spec: the Document Parser (spec sections 4.1 and 6)
recognizes chapter markers of the form `#### Chapter N: <title>` followed by a
free-text summary and the optional labeled sub-lists. -/

/-- Split a character list at newline characters. -/
def splitLinesChars : List Char → List (List Char)
  | [] => [[]]
  | c :: cs =>
    if c = '\n' then [] :: splitLinesChars cs
    else
      match splitLinesChars cs with
      | [] => [[c]]
      | l :: ls => (c :: l) :: ls

/-- Lines of an input document. -/
def docLines (doc : String) : List String :=
  (splitLinesChars doc.data).map String.mk

/-- The chapter marker literal of the input format (spec section 6). -/
def chapterMarker : String := "#### Chapter "

/-- Decimal digits to a number (most significant first). -/
def digitsToNat (l : List Char) : Nat :=
  l.foldl (fun acc c => acc * 10 + (c.toNat - 48)) 0

/-- Recognize a chapter heading `#### Chapter N: <title>`, returning the
number and the trimmed title. -/
def parseChapterHeading? (line : String) : Option (Nat × String) :=
  if charsIsPref chapterMarker.data line.data then
    let rest := line.data.drop chapterMarker.data.length
    let numCs := rest.takeWhile Char.isDigit
    let after := rest.drop numCs.length
    if numCs.isEmpty then none
    else
      match after with
      | ':' :: titleCs => some (digitsToNat numCs, ⟨trimChars titleCs⟩)
      | _ => none
  else none

/-- Which labeled sub-list of a chapter is being read. -/
inductive PSect where
  | noneS
  | goalsS
  | locsS
  | eventsS
  | challsS
deriving DecidableEq

/-- Recognize the labeled sub-list markers of the input format
(`**목표:**`, `**주요 위치:**`, `**주요 사건:**`, `**도전 과제:**`). -/
def labelOf? (line : String) : Option PSect :=
  let t := trimChars line.data
  if t = "**목표:**".data then some .goalsS
  else if t = "**주요 위치:**".data then some .locsS
  else if t = "**주요 사건:**".data then some .eventsS
  else if t = "**도전 과제:**".data then some .challsS
  else none

/-- Append a free-text line to a chapter summary. -/
def appendSummary (acc line : String) : String :=
  if acc = "" then line else acc ++ "\n" ++ line

/-- Add one bulleted item to the sub-list currently being read; with no active
label the item text is treated as part of the summary. -/
def addItem (c : ChapterRec) (sec : PSect) (item : String) : ChapterRec :=
  match sec with
  | .noneS => { c with summary := appendSummary c.summary item }
  | .goalsS => { c with goals := c.goals ++ [item] }
  | .locsS => { c with locations := c.locations ++ [item] }
  | .eventsS => { c with events := c.events ++ [item] }
  | .challsS => { c with challenges := c.challenges ++ [item] }

/-- Parser state: finished chapters in document order, the chapter being
built, and the active sub-list label. -/
structure PState where
  done : List ChapterRec
  cur : Option ChapterRec
  sect : PSect
deriving DecidableEq

/-- One parser step over a document line. A heading starts a new chapter; a
sub-list label outside any chapter is a `ParseError`; bullets feed the active
sub-list; other text feeds the summary; preamble text before the first
heading is ignored. -/
def pstep (s : PState) (line : String) : Except PipelineError PState :=
  match parseChapterHeading? line with
  | some (n, t) =>
      .ok { done := s.done ++ s.cur.toList,
            cur := some { number := n, title := t, summary := "",
                          goals := [], locations := [], events := [],
                          challenges := [] },
            sect := .noneS }
  | none =>
    match labelOf? line with
    | some sec =>
        match s.cur with
        | none => .error (.ParseError "sub-list label without a chapter context")
        | some _ => .ok { s with sect := sec }
    | none =>
        if trimChars line.data = [] then .ok { s with sect := .noneS }
        else if charsIsPref "- ".data (trimChars line.data) then
          match s.cur with
          | none => .ok s
          | some c =>
              .ok { s with
                cur := some (addItem c s.sect ⟨trimChars ((trimChars line.data).drop 2)⟩) }
        else
          match s.cur with
          | none => .ok s
          | some c =>
              .ok { s with
                cur := some { c with
                  summary := appendSummary c.summary ⟨trimChars line.data⟩ } }

/-- Run the parser step over a list of lines. -/
def prun (s : PState) : List String → Except PipelineError PState
  | [] => .ok s
  | l :: ls =>
    match pstep s l with
    | .error e => .error e
    | .ok s₁ => prun s₁ ls

/-- Modelled from the spec: the Document Parser. Produces the chapter records
in document order and fails with `ParseError` when no chapter marker is found
or a sub-list label has no chapter context (spec section 4.1). -/
def parseChapters (lines : List String) : Except PipelineError (List ChapterRec) :=
  match prun ⟨[], none, .noneS⟩ lines with
  | .error e => .error e
  | .ok s =>
      if (s.done ++ s.cur.toList).isEmpty then
        .error (.ParseError "no chapter markers found")
      else .ok (s.done ++ s.cur.toList)

/-- The (number, title) heads accumulated by a parser state, in order. -/
def pstateHeads (s : PState) : List (Nat × String) :=
  (s.done ++ s.cur.toList).map (fun c => (c.number, c.title))

/-- The game title line `# <title>` of the document, with a default. -/
def gameTitleOf (lines : List String) : String :=
  match lines.find? (fun l => charsIsPref "# ".data l.data) with
  | some l => ⟨trimChars (l.data.drop 2)⟩
  | none => "Untitled Game"

/-- Stoplist of the best-effort character-mention heuristic (spec section 4.1). -/
def stoplist : List String :=
  ["Chapter", "The", "A", "An", "He", "She", "It", "They", "This", "That"]

/-- A token looks like a proper-noun mention: at least two characters, starts
with an uppercase letter, and is not stoplisted. -/
def isMentionToken (w : String) : Bool :=
  decide (2 ≤ w.data.length) &&
    (match w.data with
     | c :: _ => c.isUpper
     | [] => false) &&
    !(decide (w ∈ stoplist))

/-- Split a character list at characters satisfying the separator predicate. -/
def splitByPred (p : Char → Bool) : List Char → List (List Char)
  | [] => [[]]
  | c :: cs =>
    if p c then [] :: splitByPred p cs
    else
      match splitByPred p cs with
      | [] => [[c]]
      | l :: ls => (c :: l) :: ls

/-- Modelled from the spec: the flat, deduplicated set of proper-noun-like
tokens harvested from a text (spec section 4.1; reused by the Retriever in
spec section 4.4). -/
def harvestMentions (text : String) : List String :=
  dedupKeep
    (((splitByPred (fun c => !c.isAlphanum) text.data).map String.mk).filter
      isMentionToken)

/-! ### Entity Extractor normalization (spec section 4.2) -/

/-- Modelled from the spec: normalization of one chapter record — trimmed
strings, case-folded location names, deduplicated list entries. -/
def normalizeChapter (c : ChapterRec) : ChapterRec :=
  { number := c.number,
    title := normString c.title,
    summary := normString c.summary,
    goals := dedupKeep (c.goals.map normString),
    locations := dedupKeep (c.locations.map normName),
    events := dedupKeep (c.events.map normString),
    challenges := dedupKeep (c.challenges.map normString) }

/-- Modelled from the spec: normalization of one character record — the name
is case-folded and trimmed (it is the natural key), other strings trimmed. -/
def normalizeCharacter (c : CharacterRec) : CharacterRec :=
  { name := normName c.name,
    role := normString c.role,
    traits := dedupKeep (c.traits.map normString) }

/-- Modelled from the spec: normalization of a whole extraction result before
it is handed to the Upsert Engine (trimmed strings, deduplicated entries,
name case-folding; spec section 4.2). -/
def normalizeExt (e : ExtractionResult) : ExtractionResult :=
  { game := normString e.game,
    chapters := e.chapters.map normalizeChapter,
    characters := dedupByKey (fun c => c.name) (e.characters.map normalizeCharacter),
    participations :=
      dedupKeep (e.participations.map (fun p =>
        { character := normName p.character, event := normString p.event })) }

/-- Modelled from the spec: chapter-contiguity validation — the chapter
numbers must be exactly the sequence 1..N in document order; a gap is a
`ParseError`, raised before any upsert (spec sections 3 and 8). -/
def checkContiguity (e : ExtractionResult) : Except PipelineError Unit :=
  if e.chapters.map (fun c => c.number) = List.range' 1 e.chapters.length then .ok ()
  else .error (.ParseError "chapter numbers are not contiguous from 1")

/-- The un-normalized extraction of a parsed document: parsed chapters plus
the best-effort character mentions. -/
def rawFromDoc (doc : String) (chs : List ChapterRec) : ExtractionResult :=
  { game := gameTitleOf (docLines doc),
    chapters := chs,
    characters := (harvestMentions doc).map (fun nm => ⟨nm, "", []⟩),
    participations := [] }

/-- Modelled from the spec: the deterministic parser-based extraction fallback
(spec section 9): parse the document, harvest character mentions, normalize,
and validate contiguity before anything may reach the Upsert Engine. -/
def extractFromDoc (doc : String) : Except PipelineError ExtractionResult :=
  match parseChapters (docLines doc) with
  | .error er => .error er
  | .ok chs =>
      match checkContiguity (normalizeExt (rawFromDoc doc chs)) with
      | .error er => .error er
      | .ok _ => .ok (normalizeExt (rawFromDoc doc chs))

/-! ### Graph Upsert Engine (spec section 4.3)

Modelled from the spec: one upsert run replaces the target game's chapter
subtree by the current extraction (set-difference cleanup), rebuilds the
`FOLLOWED_BY` chain, merges Character and Location nodes by natural key
(attributes enriched, never overwritten with empty values), retains
`PARTICIPATES_IN` and `LOCATED_ON` edges, and leaves every other game
untouched. -/

/-- Natural key of a location node. -/
def locId (game nm : String) : NodeId := NodeId.location game nm

/-- Natural key of a character node. -/
def charId (game nm : String) : NodeId := NodeId.character game nm

/-- Find a node by its natural key. -/
def findNode (ns : List Node) (i : NodeId) : Option Node :=
  ns.find? (fun n => decide (n.id = i))

/-- Is this a location node of the given game? -/
def isLocNode (game : String) (n : Node) : Bool :=
  match n.id with
  | .location g _ => g == game
  | _ => false

/-- Is this a character node of the given game? -/
def isCharNode (game : String) (n : Node) : Bool :=
  match n.id with
  | .character g _ => g == game
  | _ => false

/-- Is this a `PARTICIPATES_IN` edge of the given game? -/
def partEdgeOf (game : String) (ed : Edge) : Bool :=
  match ed.type with
  | .PARTICIPATES_IN => ed.src.gameOf == game
  | _ => false

/-- Is this a `LOCATED_ON` edge of the given game? -/
def locOnEdgeOf (game : String) (ed : Edge) : Bool :=
  match ed.type with
  | .LOCATED_ON => ed.src.gameOf == game
  | _ => false

/-- The previous character nodes of the target game. -/
def prevCharsOf (e : ExtractionResult) (g : Graph) : List Node :=
  g.nodes.filter (isCharNode e.game)

/-- The previous location nodes of the target game. -/
def prevLocsOf (e : ExtractionResult) (g : Graph) : List Node :=
  g.nodes.filter (isLocNode e.game)

/-- The previous `PARTICIPATES_IN` edges of the target game. -/
def prevPartOf (e : ExtractionResult) (g : Graph) : List Edge :=
  g.edges.filter (partEdgeOf e.game)

/-- The previous `LOCATED_ON` edges of the target game. -/
def prevLocOnOf (e : ExtractionResult) (g : Graph) : List Edge :=
  g.edges.filter (locOnEdgeOf e.game)

/-- The merged Game node: created if absent, its description (not provided by
the extraction schema) carried over from the previous state. -/
def gameNodeAfter (e : ExtractionResult) (prev : List Node) : Node :=
  { id := .game e.game, title := e.game,
    description := ((findNode prev (.game e.game)).map (fun n => n.description)).getD "" }

/-- The upserted Chapter node of one chapter record. -/
def chapterNode (game : String) (c : ChapterRec) : Node :=
  { id := .chapter game c.number, title := c.title, summary := c.summary }

/-- Goal/Event/Challenge child nodes of one chapter: exactly those of the
current extraction (set-difference cleanup makes stale children disappear). -/
def chapterChildNodes (game : String) (c : ChapterRec) : List Node :=
  c.goals.map (fun d => { id := .goal game c.number d, description := d })
    ++ c.events.map (fun d => { id := .event game c.number d, description := d })
    ++ c.challenges.map (fun d => { id := .challenge game c.number d, description := d })

/-- Chapter nodes plus their owned children, one block per chapter record. -/
def chapterNodes (game : String) : List ChapterRec → List Node
  | [] => []
  | c :: cs => chapterNode game c :: (chapterChildNodes game c ++ chapterNodes game cs)

/-- All location names of a list of chapter records, in order. -/
def locNamesOf : List ChapterRec → List String
  | [] => []
  | c :: cs => c.locations ++ locNamesOf cs

/-- The location names mentioned anywhere in the extraction, first occurrences
kept (locations are shared across chapters inside a game). -/
def mentionedLocNames (e : ExtractionResult) : List String :=
  dedupKeep (locNamesOf e.chapters)

/-- The natural keys of the mentioned locations. -/
def mentionedLocKeys (e : ExtractionResult) : List NodeId :=
  (mentionedLocNames e).map (locId e.game)

/-- Location nodes after the upsert: unmentioned previous locations are
retained (implicitly reference-counted, spec section 3); each mentioned
location is merged by natural key with its previous node. -/
def locNodesAfter (e : ExtractionResult) (prevLocs : List Node) : List Node :=
  prevLocs.filter (fun n => decide (n.id ∉ mentionedLocKeys e))
    ++ (mentionedLocNames e).map (fun nm =>
        { id := locId e.game nm,
          description :=
            ((findNode prevLocs (locId e.game nm)).map (fun n => n.description)).getD "" })

/-- The extraction's character records, first record kept per name key
(merge by natural key, never duplicate; spec section 4.3). -/
def dedupChars (e : ExtractionResult) : List CharacterRec :=
  dedupByKey (fun c => c.name) e.characters

/-- The natural keys of the extracted characters. -/
def charKeys (e : ExtractionResult) : List NodeId :=
  (dedupChars e).map (fun c => charId e.game c.name)

/-- Merge one character record with its previous node: attributes are
enriched and never overwritten with empty values (spec section 3). -/
def mergeChar (prevChars : List Node) (game : String) (c : CharacterRec) : Node :=
  { id := charId game c.name,
    role :=
      if c.role = "" then ((findNode prevChars (charId game c.name)).map (fun n => n.role)).getD ""
      else c.role,
    traits :=
      unionAppend (((findNode prevChars (charId game c.name)).map (fun n => n.traits)).getD [])
        c.traits }

/-- Character nodes after the upsert: previous characters are retained, and
each extracted character is merged by natural key. -/
def charNodesAfter (e : ExtractionResult) (prevChars : List Node) : List Node :=
  prevChars.filter (fun n => decide (n.id ∉ charKeys e))
    ++ (dedupChars e).map (mergeChar prevChars e.game)

/-- `HAS_CHAPTER` edges of the current extraction. -/
def hasChapterEdges (e : ExtractionResult) : List Edge :=
  e.chapters.map (fun c => ⟨.game e.game, .HAS_CHAPTER, .chapter e.game c.number⟩)

/-- The child edges of one chapter (`HAS_GOAL`, `TAKES_PLACE_AT`,
`CONTAINS_EVENT`, `PRESENTS_CHALLENGE`). -/
def chapterChildEdges (game : String) (c : ChapterRec) : List Edge :=
  c.goals.map (fun d => ⟨.chapter game c.number, .HAS_GOAL, .goal game c.number d⟩)
    ++ c.locations.map (fun nm => ⟨.chapter game c.number, .TAKES_PLACE_AT, locId game nm⟩)
    ++ c.events.map (fun d => ⟨.chapter game c.number, .CONTAINS_EVENT, .event game c.number d⟩)
    ++ c.challenges.map (fun d =>
        ⟨.chapter game c.number, .PRESENTS_CHALLENGE, .challenge game c.number d⟩)

/-- All chapter child edges of the current extraction. -/
def childEdges (game : String) : List ChapterRec → List Edge
  | [] => []
  | c :: cs => chapterChildEdges game c ++ childEdges game cs

/-- The rebuilt `FOLLOWED_BY` chain over the current chapter ordering
(rebuilt wholesale, not patched node by node; spec section 4.3). -/
def followedByEdges (e : ExtractionResult) : List Edge :=
  (e.chapters.zip e.chapters.tail).map (fun p =>
    ⟨.chapter e.game p.1.number, .FOLLOWED_BY, .chapter e.game p.2.number⟩)

/-- One `HAS_CHARACTER` edge per character node of the game. -/
def hasCharacterEdges (game : String) (chars : List Node) : List Edge :=
  chars.map (fun n => ⟨.game game, .HAS_CHARACTER, n.id⟩)

/-- The chapter owning a given event description, if any. -/
def eventChapterOf (e : ExtractionResult) (ev : String) : Option Nat :=
  (e.chapters.find? (fun c => decide (ev ∈ c.events))).map (fun c => c.number)

/-- `PARTICIPATES_IN` edges derived from the extraction's participations; a
participation naming an unknown event is skipped rather than aborting the
batch (spec section 7). -/
def participationEdges (e : ExtractionResult) : List Edge :=
  e.participations.filterMap (fun p =>
    (eventChapterOf e p.event).map (fun ch =>
      ⟨charId e.game p.character, .PARTICIPATES_IN, .event e.game ch p.event⟩))

/-- The rebuilt/merged node block of the target game. -/
def newGameNodes (e : ExtractionResult) (g : Graph) : List Node :=
  [gameNodeAfter e g.nodes]
    ++ chapterNodes e.game e.chapters
    ++ locNodesAfter e (prevLocsOf e g)
    ++ charNodesAfter e (prevCharsOf e g)

/-- The rebuilt/merged edge block of the target game. -/
def newGameEdges (e : ExtractionResult) (g : Graph) : List Edge :=
  hasChapterEdges e
    ++ childEdges e.game e.chapters
    ++ followedByEdges e
    ++ hasCharacterEdges e.game (charNodesAfter e (prevCharsOf e g))
    ++ unionAppend (prevPartOf e g) (participationEdges e)
    ++ prevLocOnOf e g

/-- The node list after one upsert run: other games untouched, the target
game's subgraph rebuilt/merged from the extraction. -/
def upsertNodes (e : ExtractionResult) (g : Graph) : List Node :=
  g.nodes.filter (fun n => decide (n.id.gameOf ≠ e.game)) ++ newGameNodes e g

/-- The edge list after one upsert run. -/
def upsertEdges (e : ExtractionResult) (g : Graph) : List Edge :=
  g.edges.filter (fun ed => decide (ed.src.gameOf ≠ e.game)) ++ newGameEdges e g

/-- Modelled from the spec: one run of the Graph Upsert Engine for one
normalized extraction result (spec section 4.3). -/
def upsert (e : ExtractionResult) (g : Graph) : Graph :=
  ⟨upsertNodes e g, upsertEdges e g⟩

/-- Modelled from the spec: one parser-based extraction+upsert run with its
effect on the graph store made explicit: on any error the store is returned
untouched together with the surfaced error. -/
def runPipelineState (doc : String) (g : Graph) :
    Graph × Except PipelineError Unit :=
  match extractFromDoc doc with
  | .error er => (g, .error er)
  | .ok e => (upsert e g, .ok ())

/-- The graph after one extraction+upsert attempt (unchanged on failure). -/
def runOnce (doc : String) (g : Graph) : Graph :=
  (runPipelineState doc g).1

/-! ### Graph query surface used by the invariants -/

/-- The chapter number a node records for the given game, if any. -/
def chapNumProj (game : String) (n : Node) : Option Nat :=
  match n.id with
  | .chapter gm k => if gm = game then some k else none
  | _ => none

/-- The chapter numbers recorded for a game, in node order. -/
def chapterNumbersOf (g : Graph) (game : String) : List Nat :=
  g.nodes.filterMap (chapNumProj game)

/-- Chapter-contiguity invariant: every game's chapter numbers are exactly
the sequence 1..N (spec section 8). -/
def ChapInv (g : Graph) : Prop :=
  ∀ game, chapterNumbersOf g game = List.range' 1 (chapterNumbersOf g game).length

/-- Extract the `(from, to)` chapter numbers of a `FOLLOWED_BY` edge of the
given game. -/
def followPair? (game : String) (ed : Edge) : Option (Nat × Nat) :=
  match ed.type with
  | .FOLLOWED_BY =>
      match ed.src, ed.dst with
      | .chapter g i, .chapter g' j =>
          if g = game ∧ g' = game then some (i, j) else none
      | _, _ => none
  | _ => none

/-- All `FOLLOWED_BY` pairs of a game. -/
def followedByPairs (g : Graph) (game : String) : List (Nat × Nat) :=
  g.edges.filterMap (followPair? game)

/-- The number of character nodes holding a given (game, name) natural key. -/
def charCount (g : Graph) (game nm : String) : Nat :=
  (g.nodes.filter (fun n => decide (n.id = charId game nm))).length

/-- Character-key uniqueness: at most one character node per (game, name). -/
def CharUnique (g : Graph) : Prop :=
  ∀ game nm, charCount g game nm ≤ 1

/-- The character names carried by an extraction result. -/
def mentionedCharNames (e : ExtractionResult) : List String :=
  e.characters.map (fun c => c.name)

/-! ### Graph-RAG Retriever (spec section 4.4) -/

/-- Does the graph hold a node with this key? -/
def hasNode (g : Graph) (i : NodeId) : Bool :=
  g.nodes.any (fun n => decide (n.id = i))

/-- Modelled from the spec: candidate entity names of the update request
resolved against the game's Character and Location nodes. -/
def matchedIds (request game : String) (g : Graph) : List NodeId :=
  (harvestMentions request).filterMap (fun m =>
    if hasNode g (charId game (normName m)) then some (charId game (normName m))
    else if hasNode g (locId game (normName m)) then some (locId game (normName m))
    else none)

/-- The neighbors of a node (either edge direction). -/
def neighborIds (g : Graph) (i : NodeId) : List NodeId :=
  g.edges.filterMap (fun ed =>
    if ed.src = i then some ed.dst
    else if ed.dst = i then some ed.src
    else none)

/-- The concatenated neighbor lists of a frontier. -/
def joinNeighbors (g : Graph) : List NodeId → List NodeId
  | [] => []
  | i :: is => neighborIds g i ++ joinNeighbors g is

/-- Expand a frontier by one hop, deduplicating and keeping seed order. -/
def expandHop (g : Graph) (front : List NodeId) : List NodeId :=
  dedupKeep (front ++ joinNeighbors g front)

/-- The fixed hop limit of the traversal (default 2, spec section 4.4). -/
def hopLimit : Nat := 2

/-- The fixed maximum context-bundle size (default 20, spec section 4.4). -/
def maxBundleItems : Nat := 20

/-- The `(number, key)` pairs of a game's chapter nodes. -/
def chapterNumNodes (g : Graph) (game : String) : List (Nat × NodeId) :=
  g.nodes.filterMap (fun n =>
    match n.id with
    | .chapter gm k => if gm = game then some (k, n.id) else none
    | _ => none)

/-- Insert into a list kept sorted by descending chapter number. -/
def insertByNumDesc (x : Nat × NodeId) : List (Nat × NodeId) → List (Nat × NodeId)
  | [] => [x]
  | y :: ys => if y.1 ≤ x.1 then x :: y :: ys else y :: insertByNumDesc x ys

/-- Sort by descending chapter number (recency order). -/
def sortByNumDesc : List (Nat × NodeId) → List (Nat × NodeId)
  | [] => []
  | x :: xs => insertByNumDesc x (sortByNumDesc xs)

/-- The game's chapters from most recent to oldest. -/
def recentChapters (g : Graph) (game : String) : List NodeId :=
  (sortByNumDesc (chapterNumNodes g game)).map (fun p => p.2)

/-- Modelled from the spec: the Graph-RAG Retriever (spec section 4.4).
Matched entities are expanded up to the hop limit; with no match the bundle
falls back to the most recent chapters; either way it is capped at
`maxBundleItems`. -/
def retrieve (request game : String) (g : Graph) : List NodeId :=
  let m := matchedIds request game g
  if m.isEmpty then (recentChapters g game).take maxBundleItems
  else (Nat.iterate (expandHop g) hopLimit m).take maxBundleItems

/-! ### Entity Extractor schema validation and bounded retry (spec section 4.2) -/

/-- Modelled from the spec: a raw chapter object of the LLM response; any
required field may be missing. -/
structure RawChapter where
  number : Option Nat
  title : Option String
  goals : Option (List String)
  locations : Option (List String)
  events : Option (List String)
  challenges : Option (List String)
deriving DecidableEq

/-- Modelled from the spec: a raw character object of the LLM response. -/
structure RawCharacter where
  name : Option String
  role : Option String
  traits : Option (List String)
deriving DecidableEq

/-- Modelled from the spec: a raw participation object of the LLM response. -/
structure RawParticipation where
  character : Option String
  event : Option String
deriving DecidableEq

/-- Modelled from the spec: a raw LLM response object with possibly missing
top-level keys. -/
structure RawExtraction where
  game : Option String
  chapters : Option (List RawChapter)
  characters : Option (List RawCharacter)
  participations : Option (List RawParticipation)
deriving DecidableEq

/-- Modelled from the spec: an external LLM response — either unparseable
(truncated or invalid JSON) or a parsed raw object that may still miss
required fields. -/
inductive LLMResponse where
  | invalidJson
  | json (r : RawExtraction)
deriving DecidableEq

/-- Validate one raw chapter: every required field must be present. -/
def validateChapter (c : RawChapter) : Option ChapterRec := do
  let number ← c.number
  let title ← c.title
  let goals ← c.goals
  let locations ← c.locations
  let events ← c.events
  let challenges ← c.challenges
  pure { number, title, summary := "", goals, locations, events, challenges }

/-- Validate one raw character. -/
def validateCharacter (c : RawCharacter) : Option CharacterRec := do
  let name ← c.name
  let role ← c.role
  let traits ← c.traits
  pure { name, role, traits }

/-- Validate one raw participation. -/
def validateParticipation (p : RawParticipation) : Option Participation := do
  let character ← p.character
  let event ← p.event
  pure { character, event }

/-- Modelled from the spec: schema validation of an LLM response — truncated
JSON or any missing required field fails with `ExtractionSchemaError`
(spec section 4.2). -/
def validateSchema (resp : LLMResponse) : Except PipelineError ExtractionResult :=
  match resp with
  | .invalidJson => .error (.ExtractionSchemaError "truncated or unparseable JSON")
  | .json r =>
      match r.game, r.chapters, r.characters, r.participations with
      | some game, some chs, some cs, some ps =>
          match chs.mapM validateChapter, cs.mapM validateCharacter,
              ps.mapM validateParticipation with
          | some chapters, some characters, some participations =>
              .ok { game, chapters, characters, participations }
          | _, _, _ => .error (.ExtractionSchemaError "missing required field in a record")
      | _, _, _, _ => .error (.ExtractionSchemaError "missing required top-level key")

/-- Modelled from the spec: the bounded retry policy of the Entity Extractor —
attempt 0 with the normal prompt, on schema failure exactly one retry with
the repair prompt (attempt 1), at most 2 attempts in total; the successful
output is normalized. Returns the result and the number of attempts used. -/
def extractWithRetry (oracle : Nat → LLMResponse) :
    Except PipelineError ExtractionResult × Nat :=
  match validateSchema (oracle 0) with
  | .ok r => (.ok (normalizeExt r), 1)
  | .error _ =>
      match validateSchema (oracle 1) with
      | .ok r => (.ok (normalizeExt r), 2)
      | .error er => (.error er, 2)

/-- Modelled from the spec: an LLM-backed extraction+upsert run with its
effect on the graph store made explicit — a failed extraction is discarded
without graph mutation (spec section 4.2). -/
def runLLMPipelineState (oracle : Nat → LLMResponse) (g : Graph) :
    Graph × Except PipelineError Unit × Nat :=
  match extractWithRetry oracle with
  | (.ok e, k) => (upsert e g, .ok (), k)
  | (.error er, k) => (g, .error er, k)

/-! ### Clear / reset operation (spec sections 4.3 and 6) -/

/-- Modelled from the spec: the scope of the destructive reset — one game or
the entire store. -/
inductive ClearScope where
  | game (title : String)
  | all
deriving DecidableEq

/-- Modelled from the spec: the gated destructive reset (spec section 6):
without the explicit confirmation flag nothing is deleted; with it, either
one game's nodes and incident edges are removed, or the whole store is
emptied. -/
def clearGraph : ClearScope → Bool → Graph → Graph
  | _, false, g => g
  | .game t, true, g =>
      ⟨g.nodes.filter (fun n => decide (n.id.gameOf ≠ t)),
       g.edges.filter (fun ed => decide (ed.src.gameOf ≠ t ∧ ed.dst.gameOf ≠ t))⟩
  | .all, true, _ => emptyGraph

/-- A concrete chapter record used to instantiate the pipeline theorems. -/
def sampleChapter (n : Nat) (t : String) : ChapterRec :=
  { number := n, title := t, summary := "", goals := [], locations := [],
    events := [], challenges := [] }

/-- A concrete two-chapter extraction used to instantiate the pipeline theorems. -/
def sampleExt2 : ExtractionResult :=
  { game := "sg", chapters := [sampleChapter 1 "one", sampleChapter 2 "two"],
    characters := [], participations := [] }

/-- A concrete one-node graph used to instantiate the clear/upsert theorems. -/
def sampleGraph : Graph := ⟨[{ id := NodeId.game "g1" }], []⟩

/-- A concrete extraction for a different game, used with `sampleGraph`. -/
def sampleExtOther : ExtractionResult :=
  { game := "g2", chapters := [sampleChapter 1 "only"], characters := [],
    participations := [] }

/-- A concrete well-formed one-chapter document. -/
def docW : String := "#### Chapter 1: One"

/-- The extraction of `docW` (its pipeline run succeeds). -/
def eW : ExtractionResult :=
  match extractFromDoc docW with
  | .ok e => e
  | .error _ => sampleExt2

/-- A concrete document whose chapter numbering has a gap (1 then 3). -/
def docGap : String := "#### Chapter 1: One\n#### Chapter 3: Three"

/-- The parsed chapters of `docGap`. -/
def chsGap : List ChapterRec :=
  match parseChapters (docLines docGap) with
  | .ok chs => chs
  | .error _ => []

/-- A concrete extraction whose only character mention is " AREN". -/
def sampleExtChar : ExtractionResult :=
  { game := "G", chapters := [], characters := [⟨" AREN", "Hero", []⟩],
    participations := [] }

/-- A concrete plan record used to instantiate the plan-list theorems. -/
def samplePlan (i : Nat) (t : String) : Plan :=
  { id := i, title := t, createdAt := "2025-01-01", updatedAt := "2025-01-01",
    genre := "RPG", setting := "", theme := "",
    worldBuilding := ⟨"", [], [], ""⟩,
    characters := ⟨[], [], []⟩,
    story := ⟨"", [], []⟩,
    gameMechanics := ⟨"", "", "", ""⟩,
    visualStyle := ⟨"", []⟩,
    additionalNotes := "" }

/-! ## Theorems -/

theorem charsIsPref_iff (s : List Char) : ∀ l, charsIsPref s l = true ↔ s <+: l := by
  induction s with
  | nil => intro l; simp [charsIsPref]
  | cons a as ih =>
    intro l
    cases l with
    | nil => simp [charsIsPref]
    | cons b bs =>
      simp [charsIsPref, Bool.and_eq_true, beq_iff_eq, ih, List.cons_prefix_cons,
        and_comm]

theorem charsContains_iff (s l : List Char) : charsContains s l = true ↔ s <:+: l := by
  induction l with
  | nil => simp [charsContains, charsIsPref_iff]
  | cons b bs ih =>
    simp [charsContains, Bool.or_eq_true, charsIsPref_iff, ih, List.infix_cons_iff]

theorem jsIncludes_iff (s pat : String) : jsIncludes s pat = true ↔ pat.data <:+: s.data :=
  charsContains_iff pat.data s.data

/-- C9: `generateDummyPlan` is a total function on strings; every prompt
containing the substring "다크 판타지" yields exactly the five pages titled
개요, 세계관, 주요 기능, 타임라인, 팀 소개 in that order, and every other prompt
yields the one-element default list titled 기본 기획서. -/
theorem claim_C9_generateDummyPlan (prompt : String) :
    (darkFantasyKey.data <:+: prompt.data →
      generateDummyPlan prompt = darkFantasyPages ∧
        (generateDummyPlan prompt).map Page.title =
          ["개요", "세계관", "주요 기능", "타임라인", "팀 소개"])
    ∧ (¬ darkFantasyKey.data <:+: prompt.data →
      generateDummyPlan prompt = defaultPages ∧
        (generateDummyPlan prompt).map Page.title = ["기본 기획서"]) := by
  constructor
  · intro h
    have hb : jsIncludes prompt darkFantasyKey = true := (jsIncludes_iff _ _).2 h
    constructor
    · simp [generateDummyPlan, hb]
    · simp [generateDummyPlan, hb, darkFantasyPages]
  · intro h
    have hb : jsIncludes prompt darkFantasyKey = false := by
      cases hEq : jsIncludes prompt darkFantasyKey
      · rfl
      · exact absurd ((jsIncludes_iff _ _).1 hEq) h
    constructor
    · simp [generateDummyPlan, hb]
    · simp [generateDummyPlan, hb, defaultPages]

theorem claim_C9_witness :
    generateDummyPlan "다크 판타지 게임" = darkFantasyPages ∧
      (generateDummyPlan "다크 판타지 게임").map Page.title =
        ["개요", "세계관", "주요 기능", "타임라인", "팀 소개"] :=
  (claim_C9_generateDummyPlan "다크 판타지 게임").1 (by decide)

/-- C10: plan-list edits are frame-preserving. With a selected id,
`handleFormSubmit` keeps the length, replaces exactly the positions whose
plan id equals the selected id by the form data with a fresh `updatedAt`,
and leaves every plan with a different id unchanged in place;
`handleDeletePlan` (confirmed) removes exactly the plans with the given id,
keeping the others in order, and without confirmation it deletes nothing. -/
theorem claim_C10_plan_list_frame (plans : List Plan) (sid : Nat) (pd : Plan)
    (now : String) (newId : Nat) (pid : Nat) :
    ((handleFormSubmit plans (some sid) pd now newId).length = plans.length)
    ∧ (∀ (i : Nat) (p : Plan), plans[i]? = some p → p.id ≠ sid →
        (handleFormSubmit plans (some sid) pd now newId)[i]? = some p)
    ∧ (∀ (i : Nat) (p : Plan), plans[i]? = some p → p.id = sid →
        (handleFormSubmit plans (some sid) pd now newId)[i]? =
          some { pd with updatedAt := now })
    ∧ (∀ p, p ∈ handleDeletePlan plans pid true ↔ p ∈ plans ∧ p.id ≠ pid)
    ∧ (handleDeletePlan plans pid true).Sublist plans
    ∧ handleDeletePlan plans pid false = plans := by
  refine ⟨?_, ?_, ?_, ?_, ?_, ?_⟩
  · simp [handleFormSubmit]
  · intro i p hp hne
    simp [handleFormSubmit, List.getElem?_map, hp, hne]
  · intro i p hp he
    simp [handleFormSubmit, List.getElem?_map, hp, he]
  · intro p
    simp [handleDeletePlan, List.mem_filter, bne_iff_ne]
  · simp only [handleDeletePlan, if_pos]
    exact List.filter_sublist plans
  · simp [handleDeletePlan]

theorem claim_C10_witness :
    (handleFormSubmit [samplePlan 1 "a", samplePlan 2 "b"] (some 2)
        (samplePlan 2 "c") "2025-02-02" 9)[0]? = some (samplePlan 1 "a") :=
  (claim_C10_plan_list_frame [samplePlan 1 "a", samplePlan 2 "b"] 2
      (samplePlan 2 "c") "2025-02-02" 9 7).2.1 0 (samplePlan 1 "a")
    (by decide) (by decide)

/-! ### Utility lemmas -/

theorem mem_insertIfAbsent_self {α : Type} [DecidableEq α] (l : List α) (a : α) :
    a ∈ insertIfAbsent l a := by
  by_cases h : a ∈ l <;> simp [insertIfAbsent, h]

theorem mem_insertIfAbsent_of_mem {α : Type} [DecidableEq α] {l : List α} {x : α}
    (a : α) (h : x ∈ l) : x ∈ insertIfAbsent l a := by
  by_cases ha : a ∈ l <;> simp [insertIfAbsent, ha, h]

theorem insertIfAbsent_eq_of_mem {α : Type} [DecidableEq α] {l : List α} {a : α}
    (h : a ∈ l) : insertIfAbsent l a = l := by
  simp [insertIfAbsent, h]

theorem mem_insertIfAbsent_iff {α : Type} [DecidableEq α] {l : List α} {x a : α} :
    x ∈ insertIfAbsent l a ↔ x ∈ l ∨ x = a := by
  by_cases ha : a ∈ l
  · simp only [insertIfAbsent, ha, if_pos]
    constructor
    · exact Or.inl
    · rintro (hx | rfl)
      · exact hx
      · exact ha
  · simp [insertIfAbsent, ha]

theorem unionAppend_nil {α : Type} [DecidableEq α] (l : List α) :
    unionAppend l [] = l := rfl

theorem unionAppend_cons {α : Type} [DecidableEq α] (l : List α) (b : α) (bs : List α) :
    unionAppend l (b :: bs) = unionAppend (insertIfAbsent l b) bs := rfl

theorem mem_unionAppend_left {α : Type} [DecidableEq α] {x : α} :
    ∀ (bs : List α) {l : List α}, x ∈ l → x ∈ unionAppend l bs := by
  intro bs
  induction bs with
  | nil => intro l h; exact h
  | cons b bs ih =>
    intro l h
    rw [unionAppend_cons]
    exact ih (mem_insertIfAbsent_of_mem b h)

theorem mem_unionAppend_right {α : Type} [DecidableEq α] {x : α} :
    ∀ {bs l : List α}, x ∈ bs → x ∈ unionAppend l bs := by
  intro bs
  induction bs with
  | nil => intro l h; cases h
  | cons b bs ih =>
    intro l h
    rw [unionAppend_cons]
    rcases List.mem_cons.1 h with rfl | hx
    · exact mem_unionAppend_left bs (mem_insertIfAbsent_self l x)
    · exact ih hx

theorem unionAppend_eq_self {α : Type} [DecidableEq α] :
    ∀ {bs l : List α}, (∀ x ∈ bs, x ∈ l) → unionAppend l bs = l := by
  intro bs
  induction bs with
  | nil => intro l _; rfl
  | cons b bs ih =>
    intro l h
    rw [unionAppend_cons, insertIfAbsent_eq_of_mem (h b (List.mem_cons_self b bs))]
    exact ih (fun x hx => h x (List.mem_cons_of_mem b hx))

theorem unionAppend_idem {α : Type} [DecidableEq α] (l bs : List α) :
    unionAppend (unionAppend l bs) bs = unionAppend l bs :=
  unionAppend_eq_self (fun _ hx => mem_unionAppend_right hx)

theorem mem_unionAppend_iff {α : Type} [DecidableEq α] {x : α} :
    ∀ {bs l : List α}, x ∈ unionAppend l bs ↔ x ∈ l ∨ x ∈ bs := by
  intro bs
  induction bs with
  | nil => intro l; simp [unionAppend_nil]
  | cons b bs ih =>
    intro l
    rw [unionAppend_cons, ih]
    rw [mem_insertIfAbsent_iff]
    constructor
    · rintro ((hx | rfl) | hx)
      · exact Or.inl hx
      · exact Or.inr (List.mem_cons_self _ _)
      · exact Or.inr (List.mem_cons_of_mem b hx)
    · rintro (hx | hx)
      · exact Or.inl (Or.inl hx)
      · rcases List.mem_cons.1 hx with rfl | hx
        · exact Or.inl (Or.inr rfl)
        · exact Or.inr hx

theorem mem_dedupByKeyAux {α β : Type} [DecidableEq β] {key : α → β} {a : α} :
    ∀ {l : List α} {seen : List β}, a ∈ dedupByKeyAux key seen l → a ∈ l := by
  intro l
  induction l with
  | nil => intro seen h; cases h
  | cons b bs ih =>
    intro seen h
    by_cases hb : key b ∈ seen
    · simp only [dedupByKeyAux, if_pos hb] at h
      exact List.mem_cons_of_mem b (ih h)
    · simp only [dedupByKeyAux, if_neg hb] at h
      rcases List.mem_cons.1 h with rfl | h
      · exact List.mem_cons_self _ _
      · exact List.mem_cons_of_mem b (ih h)

theorem dedupByKeyAux_keys {α β : Type} [DecidableEq β] {key : α → β} :
    ∀ (l : List α) (seen : List β),
      ((dedupByKeyAux key seen l).map key).Nodup ∧
        ∀ b ∈ (dedupByKeyAux key seen l).map key, b ∉ seen := by
  intro l
  induction l with
  | nil => intro seen; simp [dedupByKeyAux]
  | cons a as ih =>
    intro seen
    by_cases ha : key a ∈ seen
    · simpa [dedupByKeyAux, if_pos ha] using ih seen
    · have h₁ := ih (key a :: seen)
      refine ⟨?_, ?_⟩
      · simp only [dedupByKeyAux, if_neg ha, List.map_cons, List.nodup_cons]
        refine ⟨?_, h₁.1⟩
        intro hmem
        exact (h₁.2 _ hmem) (List.mem_cons_self _ _)
      · intro b hb
        simp only [dedupByKeyAux, if_neg ha, List.map_cons, List.mem_cons] at hb
        rcases hb with rfl | hb
        · exact ha
        · exact fun hs => (h₁.2 b hb) (List.mem_cons_of_mem _ hs)

theorem dedupByKeyAux_keys_cover {α β : Type} [DecidableEq β] {key : α → β} {b : β} :
    ∀ {l : List α} {seen : List β}, b ∈ l.map key → b ∉ seen →
      b ∈ (dedupByKeyAux key seen l).map key := by
  intro l
  induction l with
  | nil => intro seen h _; cases h
  | cons a as ih =>
    intro seen h hns
    rcases List.mem_cons.1 h with hb | hb
    · subst hb
      have ha : key a ∉ seen := hns
      simp only [dedupByKeyAux, if_neg ha, List.map_cons]
      exact List.mem_cons_self _ _
    · by_cases ha : key a ∈ seen
      · simp only [dedupByKeyAux, if_pos ha]
        exact ih hb hns
      · simp only [dedupByKeyAux, if_neg ha, List.map_cons]
        by_cases hba : b = key a
        · subst hba; exact List.mem_cons_self _ _
        · refine List.mem_cons_of_mem _ (ih hb ?_)
          simp [hba, hns]

theorem dedupByKey_keys_nodup {α β : Type} [DecidableEq β] (key : α → β) (l : List α) :
    ((dedupByKey key l).map key).Nodup :=
  (dedupByKeyAux_keys l []).1

theorem mem_dedupByKey {α β : Type} [DecidableEq β] {key : α → β} {a : α} {l : List α}
    (h : a ∈ dedupByKey key l) : a ∈ l :=
  mem_dedupByKeyAux h

theorem dedupByKey_keys_mem {α β : Type} [DecidableEq β] {key : α → β} {b : β}
    {l : List α} (h : b ∈ l.map key) : b ∈ (dedupByKey key l).map key :=
  dedupByKeyAux_keys_cover h (by simp)

theorem dedupKeep_nodup {α : Type} [DecidableEq α] (l : List α) :
    (dedupKeep l).Nodup := by
  have h := dedupByKey_keys_nodup (id : α → α) l
  simpa [dedupKeep] using h

theorem mem_dedupKeep_iff {α : Type} [DecidableEq α] {a : α} {l : List α} :
    a ∈ dedupKeep l ↔ a ∈ l := by
  constructor
  · exact fun h => mem_dedupByKey h
  · intro h
    have := @dedupByKey_keys_mem α α _ (id : α → α) a l (by simpa using h)
    simpa [dedupKeep] using this

theorem filter_none {α : Type} {p : α → Bool} :
    ∀ {l : List α}, (∀ a ∈ l, p a = false) → l.filter p = [] := by
  intro l
  induction l with
  | nil => intro _; rfl
  | cons a as ih =>
    intro h
    rw [List.filter_cons, h a (List.mem_cons_self _ _)]
    exact ih (fun x hx => h x (List.mem_cons_of_mem a hx))

theorem filter_all {α : Type} {p : α → Bool} :
    ∀ {l : List α}, (∀ a ∈ l, p a = true) → l.filter p = l := by
  intro l
  induction l with
  | nil => intro _; rfl
  | cons a as ih =>
    intro h
    rw [List.filter_cons, h a (List.mem_cons_self _ _)]
    simp only [if_pos]
    rw [ih (fun x hx => h x (List.mem_cons_of_mem a hx))]

theorem filterMap_none {α β : Type} {f : α → Option β} :
    ∀ {l : List α}, (∀ a ∈ l, f a = none) → l.filterMap f = [] := by
  intro l
  induction l with
  | nil => intro _; rfl
  | cons a as ih =>
    intro h
    rw [List.filterMap_cons, h a (List.mem_cons_self _ _)]
    exact ih (fun x hx => h x (List.mem_cons_of_mem a hx))

theorem find?_append_none {α : Type} {p : α → Bool} {l₁ : List α}
    (h : ∀ a ∈ l₁, p a = false) (l₂ : List α) :
    (l₁ ++ l₂).find? p = l₂.find? p := by
  induction l₁ with
  | nil => rfl
  | cons a as ih =>
    rw [List.cons_append, List.find?_cons_of_neg, ih]
    · exact fun x hx => h x (List.mem_cons_of_mem a hx)
    · simp [h a (List.mem_cons_self _ _)]

theorem find?_append_some {α : Type} {p : α → Bool} {l₁ : List α} {a : α}
    (h : l₁.find? p = some a) (l₂ : List α) : (l₁ ++ l₂).find? p = some a := by
  induction l₁ with
  | nil => cases h
  | cons x xs ih =>
    rw [List.cons_append]
    cases hx : p x
    · rw [List.find?_cons_of_neg _ (by simp [hx])]
      rw [List.find?_cons_of_neg _ (by simp [hx])] at h
      exact ih h
    · rw [List.find?_cons_of_pos _ hx]
      rw [List.find?_cons_of_pos _ hx] at h
      exact h

theorem find?_map_of_key {α β γ : Type} (keyf : α → β) (l : List α) (f : α → γ)
    (p : γ → Bool) (c : α) (hc : c ∈ l)
    (hp : ∀ a ∈ l, (p (f a) = true ↔ keyf a = keyf c))
    (hnd : (l.map keyf).Nodup) : (l.map f).find? p = some (f c) := by
  induction l with
  | nil => cases hc
  | cons a as ih =>
    rw [List.map_cons]
    by_cases h : keyf a = keyf c
    · have hpa : p (f a) = true := (hp a (List.mem_cons_self _ _)).2 h
      rw [List.find?_cons_of_pos _ hpa]
      rcases List.mem_cons.1 hc with rfl | hca
      · rfl
      · exfalso
        have : keyf c ∈ as.map keyf := List.mem_map_of_mem keyf hca
        rw [List.map_cons, List.nodup_cons] at hnd
        exact hnd.1 (h ▸ this)
    · have hpa : p (f a) = false := by
        cases hb : p (f a)
        · rfl
        · exact absurd ((hp a (List.mem_cons_self _ _)).1 hb) h
      rw [List.find?_cons_of_neg _ (by simp [hpa])]
      have hca : c ∈ as := by
        rcases List.mem_cons.1 hc with rfl | hca
        · exact absurd rfl h
        · exact hca
      refine ih hca (fun x hx => hp x (List.mem_cons_of_mem a hx)) ?_
      rw [List.map_cons, List.nodup_cons] at hnd
      exact hnd.2

/-! ### Classification lemmas for the upsert components -/

theorem bool_eq_false {b : Bool} (h : ¬ b = true) : b = false := by
  cases b
  · rfl
  · exact absurd rfl h

theorem isLocNode_iff (t : String) (n : Node) :
    isLocNode t n = true ↔ ∃ nm, n.id = NodeId.location t nm := by
  rcases n with ⟨id, title, summary, description, role, traits⟩
  cases id with
  | location g nm =>
    simp only [isLocNode, beq_iff_eq, NodeId.location.injEq]
    constructor
    · intro h; exact ⟨nm, h, rfl⟩
    · rintro ⟨nm', h, _⟩; exact h
  | game t' => simp [isLocNode]
  | chapter g k => simp [isLocNode]
  | goal g k d => simp [isLocNode]
  | event g k d => simp [isLocNode]
  | challenge g k d => simp [isLocNode]
  | character g nm => simp [isLocNode]

theorem isCharNode_iff (t : String) (n : Node) :
    isCharNode t n = true ↔ ∃ nm, n.id = NodeId.character t nm := by
  rcases n with ⟨id, title, summary, description, role, traits⟩
  cases id with
  | character g nm =>
    simp only [isCharNode, beq_iff_eq, NodeId.character.injEq]
    constructor
    · intro h; exact ⟨nm, h, rfl⟩
    · rintro ⟨nm', h, _⟩; exact h
  | game t' => simp [isCharNode]
  | chapter g k => simp [isCharNode]
  | goal g k d => simp [isCharNode]
  | event g k d => simp [isCharNode]
  | challenge g k d => simp [isCharNode]
  | location g nm => simp [isCharNode]

theorem isLocNode_gameOf {t : String} {n : Node} (h : isLocNode t n = true) :
    n.id.gameOf = t := by
  rcases (isLocNode_iff t n).1 h with ⟨nm, hid⟩
  rw [hid]; rfl

theorem isCharNode_gameOf {t : String} {n : Node} (h : isCharNode t n = true) :
    n.id.gameOf = t := by
  rcases (isCharNode_iff t n).1 h with ⟨nm, hid⟩
  rw [hid]; rfl

theorem isLocNode_not_char {t t' : String} {n : Node} (h : isLocNode t n = true) :
    isCharNode t' n = false := by
  rcases (isLocNode_iff t n).1 h with ⟨nm, hid⟩
  simp [isCharNode, hid]

theorem isCharNode_not_loc {t t' : String} {n : Node} (h : isCharNode t n = true) :
    isLocNode t' n = false := by
  rcases (isCharNode_iff t n).1 h with ⟨nm, hid⟩
  simp [isLocNode, hid]

theorem isLocNode_false_of_game {t : String} {n : Node} (h : n.id.gameOf ≠ t) :
    isLocNode t n = false := by
  refine bool_eq_false (fun hb => h ?_)
  exact isLocNode_gameOf hb

theorem isCharNode_false_of_game {t : String} {n : Node} (h : n.id.gameOf ≠ t) :
    isCharNode t n = false := by
  refine bool_eq_false (fun hb => h ?_)
  exact isCharNode_gameOf hb

theorem partEdgeOf_iff (t : String) (ed : Edge) :
    partEdgeOf t ed = true ↔ ed.type = .PARTICIPATES_IN ∧ ed.src.gameOf = t := by
  rcases ed with ⟨src, ty, dst⟩
  cases ty <;> simp [partEdgeOf, beq_iff_eq]

theorem locOnEdgeOf_iff (t : String) (ed : Edge) :
    locOnEdgeOf t ed = true ↔ ed.type = .LOCATED_ON ∧ ed.src.gameOf = t := by
  rcases ed with ⟨src, ty, dst⟩
  cases ty <;> simp [locOnEdgeOf, beq_iff_eq]

theorem partEdgeOf_gameOf {t : String} {ed : Edge} (h : partEdgeOf t ed = true) :
    ed.src.gameOf = t := ((partEdgeOf_iff t ed).1 h).2

theorem locOnEdgeOf_gameOf {t : String} {ed : Edge} (h : locOnEdgeOf t ed = true) :
    ed.src.gameOf = t := ((locOnEdgeOf_iff t ed).1 h).2

theorem followPair?_none_of_type {t : String} {ed : Edge}
    (h : ed.type ≠ .FOLLOWED_BY) : followPair? t ed = none := by
  rcases ed with ⟨src, ty, dst⟩
  cases ty <;> first | rfl | exact absurd rfl h

theorem followPair?_none_of_src {t : String} {ed : Edge}
    (h : ed.src.gameOf ≠ t) : followPair? t ed = none := by
  rcases ed with ⟨src, ty, dst⟩
  cases ty <;> try rfl
  cases src <;> cases dst <;> try rfl
  rename_i g i g' j
  have hg : g ≠ t := h
  simp [followPair?, hg]

theorem partEdgeOf_false_of_type {t : String} {ed : Edge}
    (h : ed.type ≠ .PARTICIPATES_IN) : partEdgeOf t ed = false := by
  refine bool_eq_false (fun hb => h ?_)
  exact ((partEdgeOf_iff t ed).1 hb).1

theorem locOnEdgeOf_false_of_type {t : String} {ed : Edge}
    (h : ed.type ≠ .LOCATED_ON) : locOnEdgeOf t ed = false := by
  refine bool_eq_false (fun hb => h ?_)
  exact ((locOnEdgeOf_iff t ed).1 hb).1

theorem partEdgeOf_false_of_game {t : String} {ed : Edge}
    (h : ed.src.gameOf ≠ t) : partEdgeOf t ed = false := by
  refine bool_eq_false (fun hb => h ?_)
  exact ((partEdgeOf_iff t ed).1 hb).2

theorem locOnEdgeOf_false_of_game {t : String} {ed : Edge}
    (h : ed.src.gameOf ≠ t) : locOnEdgeOf t ed = false := by
  refine bool_eq_false (fun hb => h ?_)
  exact ((locOnEdgeOf_iff t ed).1 hb).2

theorem mem_chapterNodes_facts {game : String} {cs : List ChapterRec} {n : Node}
    (h : n ∈ chapterNodes game cs) :
    n.id.gameOf = game ∧ (∀ t, isLocNode t n = false) ∧ (∀ t, isCharNode t n = false) := by
  induction cs with
  | nil => cases h
  | cons c cs ih =>
    simp only [chapterNodes, List.mem_cons, List.mem_append] at h
    rcases h with rfl | (hc | hcs)
    · exact ⟨rfl, fun t => rfl, fun t => rfl⟩
    · simp only [chapterChildNodes, List.mem_append, List.mem_map] at hc
      rcases hc with (⟨d, _, rfl⟩ | ⟨d, _, rfl⟩) | ⟨d, _, rfl⟩ <;>
        exact ⟨rfl, fun t => rfl, fun t => rfl⟩
    · exact ih hcs

theorem mem_locNodesAfter_isLoc {e : ExtractionResult} {prevLocs : List Node}
    (hprev : ∀ n ∈ prevLocs, isLocNode e.game n = true) :
    ∀ n ∈ locNodesAfter e prevLocs, isLocNode e.game n = true := by
  intro n hn
  simp only [locNodesAfter, List.mem_append] at hn
  rcases hn with hn | hn
  · exact hprev n (List.mem_filter.1 hn).1
  · rcases List.mem_map.1 hn with ⟨nm, _, rfl⟩
    simp [isLocNode, locId]

theorem mem_charNodesAfter_isChar {e : ExtractionResult} {prevChars : List Node}
    (hprev : ∀ n ∈ prevChars, isCharNode e.game n = true) :
    ∀ n ∈ charNodesAfter e prevChars, isCharNode e.game n = true := by
  intro n hn
  simp only [charNodesAfter, List.mem_append] at hn
  rcases hn with hn | hn
  · exact hprev n (List.mem_filter.1 hn).1
  · rcases List.mem_map.1 hn with ⟨c, _, rfl⟩
    simp [isCharNode, mergeChar, charId]

theorem prevLocsOf_isLoc (e : ExtractionResult) (g : Graph) :
    ∀ n ∈ prevLocsOf e g, isLocNode e.game n = true :=
  fun n hn => (List.mem_filter.1 hn).2

theorem prevCharsOf_isChar (e : ExtractionResult) (g : Graph) :
    ∀ n ∈ prevCharsOf e g, isCharNode e.game n = true :=
  fun n hn => (List.mem_filter.1 hn).2

theorem mem_newGameNodes_gameOf {e : ExtractionResult} {g : Graph} {n : Node}
    (h : n ∈ newGameNodes e g) : n.id.gameOf = e.game := by
  simp only [newGameNodes, List.mem_append, List.mem_singleton] at h
  rcases h with ((rfl | hch) | hloc) | hchar
  · rfl
  · exact (mem_chapterNodes_facts hch).1
  · exact isLocNode_gameOf (mem_locNodesAfter_isLoc (prevLocsOf_isLoc e g) n hloc)
  · exact isCharNode_gameOf (mem_charNodesAfter_isChar (prevCharsOf_isChar e g) n hchar)

theorem mem_hasChapterEdges_facts {e : ExtractionResult} {ed : Edge}
    (h : ed ∈ hasChapterEdges e) (t : String) :
    ed.src.gameOf = e.game ∧ partEdgeOf t ed = false ∧ locOnEdgeOf t ed = false ∧
      followPair? t ed = none := by
  rcases List.mem_map.1 h with ⟨c, _, rfl⟩
  exact ⟨rfl, rfl, rfl, rfl⟩

theorem mem_chapterChildEdges_facts {game : String} {c : ChapterRec} {ed : Edge}
    (h : ed ∈ chapterChildEdges game c) (t : String) :
    ed.src.gameOf = game ∧ partEdgeOf t ed = false ∧ locOnEdgeOf t ed = false ∧
      followPair? t ed = none := by
  simp only [chapterChildEdges, List.mem_append, List.mem_map] at h
  rcases h with ((⟨d, _, rfl⟩ | ⟨d, _, rfl⟩) | ⟨d, _, rfl⟩) | ⟨d, _, rfl⟩ <;>
    exact ⟨rfl, rfl, rfl, rfl⟩

theorem mem_childEdges_facts {game : String} {cs : List ChapterRec} {ed : Edge}
    (h : ed ∈ childEdges game cs) (t : String) :
    ed.src.gameOf = game ∧ partEdgeOf t ed = false ∧ locOnEdgeOf t ed = false ∧
      followPair? t ed = none := by
  induction cs with
  | nil => cases h
  | cons c cs ih =>
    simp only [childEdges, List.mem_append] at h
    rcases h with hc | hcs
    · exact mem_chapterChildEdges_facts hc t
    · exact ih hcs

theorem mem_followedByEdges_facts {e : ExtractionResult} {ed : Edge}
    (h : ed ∈ followedByEdges e) (t : String) :
    ed.src.gameOf = e.game ∧ partEdgeOf t ed = false ∧ locOnEdgeOf t ed = false := by
  rcases List.mem_map.1 h with ⟨p, _, rfl⟩
  exact ⟨rfl, rfl, rfl⟩

theorem mem_hasCharacterEdges_facts {game : String} {chars : List Node} {ed : Edge}
    (h : ed ∈ hasCharacterEdges game chars) (t : String) :
    ed.src.gameOf = game ∧ partEdgeOf t ed = false ∧ locOnEdgeOf t ed = false ∧
      followPair? t ed = none := by
  rcases List.mem_map.1 h with ⟨n, _, rfl⟩
  exact ⟨rfl, rfl, rfl, rfl⟩

theorem mem_participationEdges_facts {e : ExtractionResult} {ed : Edge}
    (h : ed ∈ participationEdges e) :
    ed.src.gameOf = e.game ∧ partEdgeOf e.game ed = true := by
  rcases List.mem_filterMap.1 h with ⟨p, _, hp⟩
  rcases Option.map_eq_some'.1 hp with ⟨ch, _, rfl⟩
  refine ⟨rfl, ?_⟩
  simp [partEdgeOf, charId, NodeId.gameOf]

theorem mem_partUnion_facts {e : ExtractionResult} {g : Graph} {ed : Edge}
    (h : ed ∈ unionAppend (prevPartOf e g) (participationEdges e)) :
    ed.src.gameOf = e.game ∧ partEdgeOf e.game ed = true := by
  rcases mem_unionAppend_iff.1 h with hp | hp
  · have := (List.mem_filter.1 hp).2
    exact ⟨partEdgeOf_gameOf this, this⟩
  · exact mem_participationEdges_facts hp

theorem mem_newGameEdges_gameOf {e : ExtractionResult} {g : Graph} {ed : Edge}
    (h : ed ∈ newGameEdges e g) : ed.src.gameOf = e.game := by
  simp only [newGameEdges, List.mem_append] at h
  rcases h with ((((h₁ | h₂) | h₃) | h₄) | h₅) | h₆
  · exact (mem_hasChapterEdges_facts h₁ e.game).1
  · exact (mem_childEdges_facts h₂ e.game).1
  · exact (mem_followedByEdges_facts h₃ e.game).1
  · exact (mem_hasCharacterEdges_facts h₄ e.game).1
  · exact (mem_partUnion_facts h₅).1
  · exact locOnEdgeOf_gameOf (List.mem_filter.1 h₆).2

/-! ### Upsert fixpoint lemmas -/

theorem upsert_nodes (e : ExtractionResult) (g : Graph) :
    (upsert e g).nodes = upsertNodes e g := rfl

theorem upsert_edges (e : ExtractionResult) (g : Graph) :
    (upsert e g).edges = upsertEdges e g := rfl

theorem upsert_nodes_other (e : ExtractionResult) (g : Graph) :
    (upsertNodes e g).filter (fun n => decide (n.id.gameOf ≠ e.game)) =
      g.nodes.filter (fun n => decide (n.id.gameOf ≠ e.game)) := by
  rw [upsertNodes, List.filter_append]
  have h1 : (g.nodes.filter (fun n => decide (n.id.gameOf ≠ e.game))).filter
      (fun n => decide (n.id.gameOf ≠ e.game)) =
      g.nodes.filter (fun n => decide (n.id.gameOf ≠ e.game)) :=
    filter_all (fun a ha => (List.mem_filter.1 ha).2)
  have h2 : (newGameNodes e g).filter (fun n => decide (n.id.gameOf ≠ e.game)) = [] :=
    filter_none (fun n hn => by simp [mem_newGameNodes_gameOf hn])
  rw [h1, h2, List.append_nil]

theorem upsert_edges_other (e : ExtractionResult) (g : Graph) :
    (upsertEdges e g).filter (fun ed => decide (ed.src.gameOf ≠ e.game)) =
      g.edges.filter (fun ed => decide (ed.src.gameOf ≠ e.game)) := by
  rw [upsertEdges, List.filter_append]
  have h1 : (g.edges.filter (fun ed => decide (ed.src.gameOf ≠ e.game))).filter
      (fun ed => decide (ed.src.gameOf ≠ e.game)) =
      g.edges.filter (fun ed => decide (ed.src.gameOf ≠ e.game)) :=
    filter_all (fun a ha => (List.mem_filter.1 ha).2)
  have h2 : (newGameEdges e g).filter (fun ed => decide (ed.src.gameOf ≠ e.game)) = [] :=
    filter_none (fun ed hed => by simp [mem_newGameEdges_gameOf hed])
  rw [h1, h2, List.append_nil]

theorem findNode_upsert_game (e : ExtractionResult) (g : Graph) :
    findNode (upsertNodes e g) (.game e.game) = some (gameNodeAfter e g.nodes) := by
  rw [upsertNodes, findNode, find?_append_none]
  · rw [newGameNodes]
    refine find?_append_some (find?_append_some (find?_append_some ?_ _) _) _
    exact List.find?_cons_of_pos _ (by simp [gameNodeAfter])
  · intro n hn
    have h := (List.mem_filter.1 hn).2
    simp only [decide_eq_true_eq] at h
    refine bool_eq_false (fun hb => ?_)
    simp only [decide_eq_true_eq] at hb
    exact h (by rw [hb]; rfl)

theorem gameNodeAfter_stable (e : ExtractionResult) (g : Graph) :
    gameNodeAfter e (upsert e g).nodes = gameNodeAfter e g.nodes := by
  show gameNodeAfter e (upsertNodes e g) = gameNodeAfter e g.nodes
  rw [gameNodeAfter, findNode_upsert_game]
  rfl

theorem prevLocs_upsert (e : ExtractionResult) (g : Graph) :
    prevLocsOf e (upsert e g) = locNodesAfter e (prevLocsOf e g) := by
  show (upsertNodes e g).filter (isLocNode e.game) = _
  rw [upsertNodes, List.filter_append]
  have h0 : (g.nodes.filter (fun n => decide (n.id.gameOf ≠ e.game))).filter
      (isLocNode e.game) = [] :=
    filter_none (fun n hn =>
      isLocNode_false_of_game (by
        have := (List.mem_filter.1 hn).2
        simpa using this))
  rw [h0, List.nil_append, newGameNodes, List.filter_append, List.filter_append,
    List.filter_append]
  have hg : ([gameNodeAfter e g.nodes].filter (isLocNode e.game)) = [] :=
    filter_none (fun n hn => by
      rcases List.mem_singleton.1 hn with rfl
      rfl)
  have hch : (chapterNodes e.game e.chapters).filter (isLocNode e.game) = [] :=
    filter_none (fun n hn => (mem_chapterNodes_facts hn).2.1 e.game)
  have hloc : (locNodesAfter e (prevLocsOf e g)).filter (isLocNode e.game) =
      locNodesAfter e (prevLocsOf e g) :=
    filter_all (mem_locNodesAfter_isLoc (prevLocsOf_isLoc e g))
  have hchar : (charNodesAfter e (prevCharsOf e g)).filter (isLocNode e.game) = [] :=
    filter_none (fun n hn =>
      isCharNode_not_loc (mem_charNodesAfter_isChar (prevCharsOf_isChar e g) n hn))
  rw [hg, hch, hloc, hchar, List.nil_append, List.nil_append, List.append_nil]

theorem prevChars_upsert (e : ExtractionResult) (g : Graph) :
    prevCharsOf e (upsert e g) = charNodesAfter e (prevCharsOf e g) := by
  show (upsertNodes e g).filter (isCharNode e.game) = _
  rw [upsertNodes, List.filter_append]
  have h0 : (g.nodes.filter (fun n => decide (n.id.gameOf ≠ e.game))).filter
      (isCharNode e.game) = [] :=
    filter_none (fun n hn =>
      isCharNode_false_of_game (by
        have := (List.mem_filter.1 hn).2
        simpa using this))
  rw [h0, List.nil_append, newGameNodes, List.filter_append, List.filter_append,
    List.filter_append]
  have hg : ([gameNodeAfter e g.nodes].filter (isCharNode e.game)) = [] :=
    filter_none (fun n hn => by
      rcases List.mem_singleton.1 hn with rfl
      rfl)
  have hch : (chapterNodes e.game e.chapters).filter (isCharNode e.game) = [] :=
    filter_none (fun n hn => (mem_chapterNodes_facts hn).2.2 e.game)
  have hloc : (locNodesAfter e (prevLocsOf e g)).filter (isCharNode e.game) = [] :=
    filter_none (fun n hn =>
      isLocNode_not_char (mem_locNodesAfter_isLoc (prevLocsOf_isLoc e g) n hn))
  have hchar : (charNodesAfter e (prevCharsOf e g)).filter (isCharNode e.game) =
      charNodesAfter e (prevCharsOf e g) :=
    filter_all (mem_charNodesAfter_isChar (prevCharsOf_isChar e g))
  rw [hg, hch, hloc, hchar, List.nil_append, List.nil_append, List.nil_append]

theorem prevPart_upsert (e : ExtractionResult) (g : Graph) :
    prevPartOf e (upsert e g) = unionAppend (prevPartOf e g) (participationEdges e) := by
  show (upsertEdges e g).filter (partEdgeOf e.game) = _
  rw [upsertEdges, List.filter_append]
  have h0 : (g.edges.filter (fun ed => decide (ed.src.gameOf ≠ e.game))).filter
      (partEdgeOf e.game) = [] :=
    filter_none (fun ed hed =>
      partEdgeOf_false_of_game (by
        have := (List.mem_filter.1 hed).2
        simpa using this))
  rw [h0, List.nil_append, newGameEdges, List.filter_append, List.filter_append,
    List.filter_append, List.filter_append, List.filter_append]
  have h1 : (hasChapterEdges e).filter (partEdgeOf e.game) = [] :=
    filter_none (fun ed hed => (mem_hasChapterEdges_facts hed e.game).2.1)
  have h2 : (childEdges e.game e.chapters).filter (partEdgeOf e.game) = [] :=
    filter_none (fun ed hed => (mem_childEdges_facts hed e.game).2.1)
  have h3 : (followedByEdges e).filter (partEdgeOf e.game) = [] :=
    filter_none (fun ed hed => (mem_followedByEdges_facts hed e.game).2.1)
  have h4 : (hasCharacterEdges e.game (charNodesAfter e (prevCharsOf e g))).filter
      (partEdgeOf e.game) = [] :=
    filter_none (fun ed hed => (mem_hasCharacterEdges_facts hed e.game).2.1)
  have h5 : (unionAppend (prevPartOf e g) (participationEdges e)).filter
      (partEdgeOf e.game) = unionAppend (prevPartOf e g) (participationEdges e) :=
    filter_all (fun ed hed => (mem_partUnion_facts hed).2)
  have h6 : (prevLocOnOf e g).filter (partEdgeOf e.game) = [] :=
    filter_none (fun ed hed =>
      partEdgeOf_false_of_type (by
        simp [((locOnEdgeOf_iff e.game ed).1 (List.mem_filter.1 hed).2).1]))
  rw [h1, h2, h3, h4, h5, h6, List.nil_append, List.nil_append, List.nil_append,
    List.nil_append, List.append_nil]

theorem prevLocOn_upsert (e : ExtractionResult) (g : Graph) :
    prevLocOnOf e (upsert e g) = prevLocOnOf e g := by
  show (upsertEdges e g).filter (locOnEdgeOf e.game) = _
  rw [upsertEdges, List.filter_append]
  have h0 : (g.edges.filter (fun ed => decide (ed.src.gameOf ≠ e.game))).filter
      (locOnEdgeOf e.game) = [] :=
    filter_none (fun ed hed =>
      locOnEdgeOf_false_of_game (by
        have := (List.mem_filter.1 hed).2
        simpa using this))
  rw [h0, List.nil_append, newGameEdges, List.filter_append, List.filter_append,
    List.filter_append, List.filter_append, List.filter_append]
  have h1 : (hasChapterEdges e).filter (locOnEdgeOf e.game) = [] :=
    filter_none (fun ed hed => (mem_hasChapterEdges_facts hed e.game).2.2.1)
  have h2 : (childEdges e.game e.chapters).filter (locOnEdgeOf e.game) = [] :=
    filter_none (fun ed hed => (mem_childEdges_facts hed e.game).2.2.1)
  have h3 : (followedByEdges e).filter (locOnEdgeOf e.game) = [] :=
    filter_none (fun ed hed => (mem_followedByEdges_facts hed e.game).2.2)
  have h4 : (hasCharacterEdges e.game (charNodesAfter e (prevCharsOf e g))).filter
      (locOnEdgeOf e.game) = [] :=
    filter_none (fun ed hed => (mem_hasCharacterEdges_facts hed e.game).2.2.1)
  have h5 : (unionAppend (prevPartOf e g) (participationEdges e)).filter
      (locOnEdgeOf e.game) = [] :=
    filter_none (fun ed hed =>
      locOnEdgeOf_false_of_type (by
        simp [((partEdgeOf_iff e.game ed).1 (mem_partUnion_facts hed).2).1]))
  have h6 : (prevLocOnOf e g).filter (locOnEdgeOf e.game) = prevLocOnOf e g :=
    filter_all (fun ed hed => (List.mem_filter.1 hed).2)
  rw [h1, h2, h3, h4, h5, h6, List.nil_append, List.nil_append, List.nil_append,
    List.nil_append, List.nil_append]

theorem mentionedLocNames_nodup (e : ExtractionResult) :
    (mentionedLocNames e).Nodup := dedupKeep_nodup _

theorem findNode_locNodesAfter (e : ExtractionResult) (prevLocs : List Node)
    {nm : String} (hnm : nm ∈ mentionedLocNames e) :
    findNode (locNodesAfter e prevLocs) (locId e.game nm) =
      some { id := locId e.game nm,
             description :=
               ((findNode prevLocs (locId e.game nm)).map (fun n => n.description)).getD "" } := by
  rw [locNodesAfter, findNode, find?_append_none]
  · refine find?_map_of_key (fun x => x) (mentionedLocNames e)
      (fun x => ({ id := locId e.game x,
                   description :=
                     ((findNode prevLocs (locId e.game x)).map (fun n => n.description)).getD "" } :
        Node))
      (fun n => decide (n.id = locId e.game nm)) nm hnm ?_ ?_
    · intro a _
      simp [locId, NodeId.location.injEq]
    · simpa using mentionedLocNames_nodup e
  · intro n hn
    have h2 := (List.mem_filter.1 hn).2
    simp only [decide_eq_true_eq] at h2
    refine bool_eq_false (fun hb => ?_)
    simp only [decide_eq_true_eq] at hb
    refine h2 ?_
    rw [hb, mentionedLocKeys]
    exact List.mem_map_of_mem _ hnm

theorem locNodesAfter_idem (e : ExtractionResult) (prevLocs : List Node) :
    locNodesAfter e (locNodesAfter e prevLocs) = locNodesAfter e prevLocs := by
  conv_lhs => rw [locNodesAfter]
  have hkept : (locNodesAfter e prevLocs).filter
      (fun n => decide (n.id ∉ mentionedLocKeys e)) =
      prevLocs.filter (fun n => decide (n.id ∉ mentionedLocKeys e)) := by
    rw [locNodesAfter, List.filter_append]
    have h1 : (prevLocs.filter (fun n => decide (n.id ∉ mentionedLocKeys e))).filter
        (fun n => decide (n.id ∉ mentionedLocKeys e)) =
        prevLocs.filter (fun n => decide (n.id ∉ mentionedLocKeys e)) :=
      filter_all (fun a ha => (List.mem_filter.1 ha).2)
    have h2 : ((mentionedLocNames e).map (fun nm =>
        ({ id := locId e.game nm,
           description :=
             ((findNode prevLocs (locId e.game nm)).map (fun n => n.description)).getD "" } :
          Node))).filter (fun n => decide (n.id ∉ mentionedLocKeys e)) = [] := by
      refine filter_none (fun n hn => ?_)
      rcases List.mem_map.1 hn with ⟨nm, hnm, rfl⟩
      refine bool_eq_false (fun hb => ?_)
      simp only [decide_eq_true_eq] at hb
      refine hb ?_
      rw [mentionedLocKeys]
      exact List.mem_map_of_mem _ hnm
    rw [h1, h2, List.append_nil]
  have hmap : (mentionedLocNames e).map (fun nm =>
      ({ id := locId e.game nm,
         description :=
           ((findNode (locNodesAfter e prevLocs) (locId e.game nm)).map
             (fun n => n.description)).getD "" } : Node)) =
      (mentionedLocNames e).map (fun nm =>
      ({ id := locId e.game nm,
         description :=
           ((findNode prevLocs (locId e.game nm)).map (fun n => n.description)).getD "" } :
        Node)) := by
    refine List.map_congr_left (fun nm hnm => ?_)
    rw [findNode_locNodesAfter e prevLocs hnm]
    rfl
  rw [hkept, hmap]
  rfl

theorem dedupChars_names_nodup (e : ExtractionResult) :
    ((dedupChars e).map (fun c => c.name)).Nodup :=
  dedupByKey_keys_nodup _ _

theorem findNode_charNodesAfter (e : ExtractionResult) (prevChars : List Node)
    {c : CharacterRec} (hc : c ∈ dedupChars e) :
    findNode (charNodesAfter e prevChars) (charId e.game c.name) =
      some (mergeChar prevChars e.game c) := by
  rw [charNodesAfter, findNode, find?_append_none]
  · refine find?_map_of_key (fun c => c.name) (dedupChars e) (mergeChar prevChars e.game)
      (fun n => decide (n.id = charId e.game c.name)) c hc ?_ (dedupChars_names_nodup e)
    intro a _
    simp [mergeChar, charId, NodeId.character.injEq]
  · intro n hn
    have h2 := (List.mem_filter.1 hn).2
    simp only [decide_eq_true_eq] at h2
    refine bool_eq_false (fun hb => ?_)
    simp only [decide_eq_true_eq] at hb
    refine h2 ?_
    rw [hb, charKeys]
    exact List.mem_map_of_mem _ hc

theorem mergeChar_idem (e : ExtractionResult) (prevChars : List Node)
    {c : CharacterRec} (hc : c ∈ dedupChars e) :
    mergeChar (charNodesAfter e prevChars) e.game c = mergeChar prevChars e.game c := by
  have hf := findNode_charNodesAfter e prevChars hc
  by_cases hr : c.role = ""
  · simp [mergeChar, hf, hr, unionAppend_idem]
  · simp [mergeChar, hf, hr, unionAppend_idem]

theorem charNodesAfter_idem (e : ExtractionResult) (prevChars : List Node) :
    charNodesAfter e (charNodesAfter e prevChars) = charNodesAfter e prevChars := by
  conv_lhs => rw [charNodesAfter]
  have hkept : (charNodesAfter e prevChars).filter
      (fun n => decide (n.id ∉ charKeys e)) =
      prevChars.filter (fun n => decide (n.id ∉ charKeys e)) := by
    rw [charNodesAfter, List.filter_append]
    have h1 : (prevChars.filter (fun n => decide (n.id ∉ charKeys e))).filter
        (fun n => decide (n.id ∉ charKeys e)) =
        prevChars.filter (fun n => decide (n.id ∉ charKeys e)) :=
      filter_all (fun a ha => (List.mem_filter.1 ha).2)
    have h2 : ((dedupChars e).map (mergeChar prevChars e.game)).filter
        (fun n => decide (n.id ∉ charKeys e)) = [] := by
      refine filter_none (fun n hn => ?_)
      rcases List.mem_map.1 hn with ⟨c, hcm, rfl⟩
      refine bool_eq_false (fun hb => ?_)
      simp only [decide_eq_true_eq] at hb
      refine hb ?_
      rw [show (mergeChar prevChars e.game c).id = charId e.game c.name from rfl, charKeys]
      exact List.mem_map_of_mem _ hcm
    rw [h1, h2, List.append_nil]
  have hmap : (dedupChars e).map (mergeChar (charNodesAfter e prevChars) e.game) =
      (dedupChars e).map (mergeChar prevChars e.game) :=
    List.map_congr_left (fun c hcm => mergeChar_idem e prevChars hcm)
  rw [hkept, hmap]
  rfl

theorem upsertNodes_stable (e : ExtractionResult) (g : Graph) :
    upsertNodes e (upsert e g) = upsertNodes e g := by
  rw [upsertNodes, upsertNodes]
  rw [upsert_nodes, upsert_nodes_other]
  rw [newGameNodes, newGameNodes]
  rw [gameNodeAfter_stable]
  rw [prevLocs_upsert, locNodesAfter_idem]
  rw [prevChars_upsert, charNodesAfter_idem]

theorem upsertEdges_stable (e : ExtractionResult) (g : Graph) :
    upsertEdges e (upsert e g) = upsertEdges e g := by
  rw [upsertEdges, upsertEdges]
  rw [upsert_edges, upsert_edges_other]
  rw [newGameEdges, newGameEdges]
  rw [prevChars_upsert, charNodesAfter_idem]
  rw [prevPart_upsert, unionAppend_idem]
  rw [prevLocOn_upsert]

theorem upsert_idem (e : ExtractionResult) (g : Graph) :
    upsert e (upsert e g) = upsert e g := by
  show Graph.mk (upsertNodes e (upsert e g)) (upsertEdges e (upsert e g)) =
    Graph.mk (upsertNodes e g) (upsertEdges e g)
  rw [upsertNodes_stable, upsertEdges_stable]

/-- C1: the extraction+upsert pipeline is idempotent — for every extraction
result (hence for `extract(doc)` for every input document) and every initial
graph state, upserting twice equals upserting once, with identical nodes,
edges and attribute values; consequently a whole pipeline run `runOnce` is
idempotent on the graph store for every document, including failing ones. -/
theorem claim_C1_extraction_upsert_idempotent (doc : String) (g : Graph)
    (e : ExtractionResult) :
    upsert e (upsert e g) = upsert e g ∧
      runOnce doc (runOnce doc g) = runOnce doc g := by
  refine ⟨upsert_idem e g, ?_⟩
  cases hx : extractFromDoc doc with
  | error er => simp [runOnce, runPipelineState, hx]
  | ok e' => simp [runOnce, runPipelineState, hx, upsert_idem]

/-- C8: the destructive clear is explicitly gated — without the confirmation
flag nothing is deleted; confirmed, the game scope removes exactly that
game's nodes and incident edges and the all scope empties the store; and a
normal upsert never deletes anything outside the target game's cleanup
scope: every node and edge of another game survives the upsert. -/
theorem claim_C8_clear_gated_upsert_frame (g : Graph) (t : String)
    (e : ExtractionResult) (scope : ClearScope) :
    clearGraph scope false g = g
    ∧ (∀ n : Node, n ∈ (clearGraph (.game t) true g).nodes ↔
        n ∈ g.nodes ∧ n.id.gameOf ≠ t)
    ∧ (∀ ed : Edge, ed ∈ (clearGraph (.game t) true g).edges ↔
        ed ∈ g.edges ∧ ed.src.gameOf ≠ t ∧ ed.dst.gameOf ≠ t)
    ∧ clearGraph .all true g = emptyGraph
    ∧ (∀ n ∈ g.nodes, n.id.gameOf ≠ e.game → n ∈ (upsert e g).nodes)
    ∧ (∀ ed ∈ g.edges, ed.src.gameOf ≠ e.game → ed ∈ (upsert e g).edges) := by
  refine ⟨?_, ?_, ?_, rfl, ?_, ?_⟩
  · cases scope <;> rfl
  · intro n
    simp [clearGraph, List.mem_filter]
  · intro ed
    simp [clearGraph, List.mem_filter, and_assoc]
  · intro n hn hne
    rw [upsert_nodes, upsertNodes]
    exact List.mem_append_left _ (List.mem_filter.2 ⟨hn, by simp [hne]⟩)
  · intro ed hed hne
    rw [upsert_edges, upsertEdges]
    exact List.mem_append_left _ (List.mem_filter.2 ⟨hed, by simp [hne]⟩)

theorem claim_C8_witness :
    { id := NodeId.game "g1" } ∈ (upsert sampleExtOther sampleGraph).nodes :=
  (claim_C8_clear_gated_upsert_frame sampleGraph "g1" sampleExtOther .all).2.2.2.2.1
    { id := NodeId.game "g1" } (by simp [sampleGraph]) (by decide)

theorem filterMap_eq_map_of {α β : Type} {h : α → Option β} {f : α → β} :
    ∀ {l : List α}, (∀ a ∈ l, h a = some (f a)) → l.filterMap h = l.map f := by
  intro l
  induction l with
  | nil => intro _; rfl
  | cons a as ih =>
    intro hall
    rw [List.filterMap_cons, hall a (List.mem_cons_self _ _), List.map_cons]
    rw [ih (fun x hx => hall x (List.mem_cons_of_mem a hx))]

theorem chapterNumbers_zip_map (cs : List ChapterRec) :
    (cs.zip cs.tail).map (fun p => (p.1.number, p.2.number)) =
      (cs.map (fun c => c.number)).zip ((cs.map (fun c => c.number)).tail) := by
  induction cs with
  | nil => rfl
  | cons c cs ih =>
    cases cs with
    | nil => rfl
    | cons c₂ cs₂ =>
      rw [show (c :: c₂ :: cs₂).zip (c :: c₂ :: cs₂).tail =
          (c, c₂) :: ((c₂ :: cs₂).zip (c₂ :: cs₂).tail) from rfl]
      rw [List.map_cons, ih]
      rfl

theorem range'_zip (n : Nat) : ∀ a : Nat,
    (List.range' a (n+1)).zip (List.range' (a+1) n) =
      (List.range' a n).map (fun i => (i, i+1)) := by
  induction n with
  | zero => intro a; rfl
  | succ m ih =>
    intro a
    have h1 : List.range' a (m+2) = a :: List.range' (a+1) (m+1) := List.range'_succ _ _ _
    have h2 : List.range' (a+1) (m+1) = (a+1) :: List.range' (a+2) m := List.range'_succ _ _ _
    rw [h1, h2, List.zip_cons_cons, ← h2, ih (a+1)]
    rw [show List.range' a (m+1) = a :: List.range' (a+1) m from List.range'_succ _ _ _]
    rw [List.map_cons]

theorem followedByPairs_upsert (e : ExtractionResult) (g : Graph) :
    followedByPairs (upsert e g) e.game =
      (e.chapters.map (fun c => c.number)).zip
        ((e.chapters.map (fun c => c.number)).tail) := by
  rw [followedByPairs, upsert_edges, upsertEdges, List.filterMap_append]
  have h0 : (g.edges.filter (fun ed => decide (ed.src.gameOf ≠ e.game))).filterMap
      (followPair? e.game) = [] :=
    filterMap_none (fun ed hed =>
      followPair?_none_of_src (by
        have := (List.mem_filter.1 hed).2
        simpa using this))
  rw [h0, List.nil_append, newGameEdges, List.filterMap_append, List.filterMap_append,
    List.filterMap_append, List.filterMap_append, List.filterMap_append]
  have h1 : (hasChapterEdges e).filterMap (followPair? e.game) = [] :=
    filterMap_none (fun ed hed => (mem_hasChapterEdges_facts hed e.game).2.2.2)
  have h2 : (childEdges e.game e.chapters).filterMap (followPair? e.game) = [] :=
    filterMap_none (fun ed hed => (mem_childEdges_facts hed e.game).2.2.2)
  have h3 : (followedByEdges e).filterMap (followPair? e.game) =
      (e.chapters.zip e.chapters.tail).map (fun p => (p.1.number, p.2.number)) := by
    rw [followedByEdges, List.filterMap_map]
    exact filterMap_eq_map_of (fun p _ => by simp [followPair?])
  have h4 : (hasCharacterEdges e.game (charNodesAfter e (prevCharsOf e g))).filterMap
      (followPair? e.game) = [] :=
    filterMap_none (fun ed hed => (mem_hasCharacterEdges_facts hed e.game).2.2.2)
  have h5 : (unionAppend (prevPartOf e g) (participationEdges e)).filterMap
      (followPair? e.game) = [] :=
    filterMap_none (fun ed hed =>
      followPair?_none_of_type (by
        simp [((partEdgeOf_iff e.game ed).1 (mem_partUnion_facts hed).2).1]))
  have h6 : (prevLocOnOf e g).filterMap (followPair? e.game) = [] :=
    filterMap_none (fun ed hed =>
      followPair?_none_of_type (by
        simp [((locOnEdgeOf_iff e.game ed).1 (List.mem_filter.1 hed).2).1]))
  rw [h1, h2, h3, h4, h5, h6, List.nil_append, List.nil_append, List.append_nil,
    List.append_nil, List.append_nil]
  exact chapterNumbers_zip_map e.chapters

/-- C2: after a successful upsert of a validated extraction with N > 1
chapters, the `FOLLOWED_BY` edges of that game are exactly the canonical
chain pairs (1,2), (2,3), …, (N-1,N): there are exactly N-1 of them, they
form one linear path from chapter 1 to chapter N, with no branch and no
cycle, and chapter i links only to chapter i+1. -/
theorem claim_C2_followed_by_chain (e : ExtractionResult) (g : Graph)
    (hval : checkContiguity e = .ok ()) (hN : 1 < e.chapters.length) :
    (followedByPairs (upsert e g) e.game).length = e.chapters.length - 1 ∧
      followedByPairs (upsert e g) e.game =
        (List.range' 1 (e.chapters.length - 1)).map (fun i => (i, i+1)) := by
  have hmap : e.chapters.map (fun c => c.number) = List.range' 1 e.chapters.length := by
    by_cases h : e.chapters.map (fun c => c.number) = List.range' 1 e.chapters.length
    · exact h
    · simp [checkContiguity, h] at hval
  obtain ⟨m, hm⟩ : ∃ m, e.chapters.length = m + 1 := ⟨e.chapters.length - 1, by omega⟩
  have heq : followedByPairs (upsert e g) e.game =
      (List.range' 1 (e.chapters.length - 1)).map (fun i => (i, i+1)) := by
    rw [followedByPairs_upsert, hmap, hm]
    have htail : (List.range' 1 (m+1)).tail = List.range' 2 m := by
      rw [List.range'_succ]
      rfl
    rw [htail, range'_zip m 1]
    simp
  refine ⟨?_, heq⟩
  rw [heq]
  simp [List.length_map, List.length_range']

theorem claim_C2_witness :
    (followedByPairs (upsert sampleExt2 emptyGraph) sampleExt2.game).length =
      sampleExt2.chapters.length - 1 ∧
      followedByPairs (upsert sampleExt2 emptyGraph) sampleExt2.game =
        (List.range' 1 (sampleExt2.chapters.length - 1)).map (fun i => (i, i+1)) :=
  claim_C2_followed_by_chain sampleExt2 emptyGraph (by rfl) (by decide)

theorem filterMap_filter_of {α β : Type} {p : α → Bool} {f : α → Option β} :
    ∀ {l : List α}, (∀ a ∈ l, p a = false → f a = none) →
      (l.filter p).filterMap f = l.filterMap f := by
  intro l
  induction l with
  | nil => intro _; rfl
  | cons a as ih =>
    intro h
    rw [List.filter_cons]
    cases hp : p a
    · rw [if_neg (by simp)]
      rw [ih (fun x hx => h x (List.mem_cons_of_mem a hx)), List.filterMap_cons,
        h a (List.mem_cons_self _ _) hp]
    · rw [if_pos rfl]
      rw [List.filterMap_cons, List.filterMap_cons]
      cases hf : f a
      · exact ih (fun x hx => h x (List.mem_cons_of_mem a hx))
      · rw [ih (fun x hx => h x (List.mem_cons_of_mem a hx))]

theorem chapNumProj_none_of_game {t : String} {n : Node} (h : n.id.gameOf ≠ t) :
    chapNumProj t n = none := by
  rcases n with ⟨id, title, summary, description, role, traits⟩
  cases id with
  | chapter gm k =>
    have : gm ≠ t := h
    simp [chapNumProj, this]
  | game t' => rfl
  | goal g k d => rfl
  | location g nm => rfl
  | event g k d => rfl
  | challenge g k d => rfl
  | character g nm => rfl

theorem chapterChildNodes_chapNumProj (game t : String) (c : ChapterRec) :
    ∀ n ∈ chapterChildNodes game c, chapNumProj t n = none := by
  intro n hn
  simp only [chapterChildNodes, List.mem_append, List.mem_map] at hn
  rcases hn with (⟨d, _, rfl⟩ | ⟨d, _, rfl⟩) | ⟨d, _, rfl⟩ <;> rfl

theorem chapterNodes_numbers (game : String) (cs : List ChapterRec) :
    (chapterNodes game cs).filterMap (chapNumProj game) =
      cs.map (fun c => c.number) := by
  induction cs with
  | nil => rfl
  | cons c cs ih =>
    rw [chapterNodes, List.filterMap_cons,
      show chapNumProj game (chapterNode game c) = some c.number by
        simp [chapNumProj, chapterNode]]
    rw [List.filterMap_append, filterMap_none (chapterChildNodes_chapNumProj game game c),
      List.nil_append, ih, List.map_cons]

theorem chapterNumbersOf_upsert_self (e : ExtractionResult) (g : Graph) :
    chapterNumbersOf (upsert e g) e.game = e.chapters.map (fun c => c.number) := by
  rw [chapterNumbersOf, upsert_nodes, upsertNodes, List.filterMap_append]
  have h0 : (g.nodes.filter (fun n => decide (n.id.gameOf ≠ e.game))).filterMap
      (chapNumProj e.game) = [] :=
    filterMap_none (fun n hn =>
      chapNumProj_none_of_game (by
        have := (List.mem_filter.1 hn).2
        simpa using this))
  rw [h0, List.nil_append, newGameNodes, List.filterMap_append, List.filterMap_append,
    List.filterMap_append]
  have hg : ([gameNodeAfter e g.nodes].filterMap (chapNumProj e.game)) = [] :=
    filterMap_none (fun n hn => by
      rcases List.mem_singleton.1 hn with rfl
      rfl)
  have hloc : (locNodesAfter e (prevLocsOf e g)).filterMap (chapNumProj e.game) = [] :=
    filterMap_none (fun n hn => by
      rcases (isLocNode_iff e.game n).1
        (mem_locNodesAfter_isLoc (prevLocsOf_isLoc e g) n hn) with ⟨nm, hid⟩
      simp [chapNumProj, hid])
  have hchar : (charNodesAfter e (prevCharsOf e g)).filterMap (chapNumProj e.game) = [] :=
    filterMap_none (fun n hn => by
      rcases (isCharNode_iff e.game n).1
        (mem_charNodesAfter_isChar (prevCharsOf_isChar e g) n hn) with ⟨nm, hid⟩
      simp [chapNumProj, hid])
  rw [hg, hloc, hchar, chapterNodes_numbers, List.nil_append, List.append_nil,
    List.append_nil]

theorem chapterNumbersOf_upsert_other (e : ExtractionResult) (g : Graph)
    {t : String} (ht : t ≠ e.game) :
    chapterNumbersOf (upsert e g) t = chapterNumbersOf g t := by
  rw [chapterNumbersOf, upsert_nodes, upsertNodes, List.filterMap_append]
  have h1 : (newGameNodes e g).filterMap (chapNumProj t) = [] :=
    filterMap_none (fun n hn =>
      chapNumProj_none_of_game (by
        rw [mem_newGameNodes_gameOf hn]
        exact fun h => ht h.symm))
  have h2 : (g.nodes.filter (fun n => decide (n.id.gameOf ≠ e.game))).filterMap
      (chapNumProj t) = g.nodes.filterMap (chapNumProj t) :=
    filterMap_filter_of (fun n _ hp => by
      refine chapNumProj_none_of_game ?_
      have hgame : n.id.gameOf = e.game := by
        by_cases hx : n.id.gameOf = e.game
        · exact hx
        · rw [decide_eq_true hx] at hp
          cases hp
      rw [hgame]
      exact fun h => ht h.symm)
  rw [h1, h2, List.append_nil, chapterNumbersOf]

theorem normalizeExt_chapter_numbers (E : ExtractionResult) :
    (normalizeExt E).chapters.map (fun c => c.number) =
      E.chapters.map (fun c => c.number) := by
  show (E.chapters.map normalizeChapter).map (fun c => c.number) = _
  rw [List.map_map]
  exact List.map_congr_left (fun c _ => rfl)

theorem normalizeExt_chapters_length (E : ExtractionResult) :
    (normalizeExt E).chapters.length = E.chapters.length := by
  show (E.chapters.map normalizeChapter).length = _
  rw [List.length_map]

theorem checkContiguity_ok {E : ExtractionResult} {u : Unit}
    (h : checkContiguity E = .ok u) :
    E.chapters.map (fun c => c.number) = List.range' 1 E.chapters.length := by
  by_cases hc : E.chapters.map (fun c => c.number) = List.range' 1 E.chapters.length
  · exact hc
  · rw [checkContiguity, if_neg hc] at h
    cases h

theorem extractFromDoc_ok_contig {doc : String} {e : ExtractionResult}
    (h : extractFromDoc doc = .ok e) :
    e.chapters.map (fun c => c.number) = List.range' 1 e.chapters.length := by
  rw [extractFromDoc] at h
  split at h
  · cases h
  · split at h
    · cases h
    · rename_i s0 chs hpeq s2 u hc
      have he : normalizeExt (rawFromDoc doc chs) = e := by
        injection h
      rw [← he]
      exact checkContiguity_ok hc

/-- C3: chapter contiguity. The invariant "every game's chapter numbers are
exactly 1..N, one chapter per (game, number)" holds for the empty store and
is preserved by every successful pipeline run; and a document whose parsed
chapter numbering has a gap makes the run fail with a `ParseError` while the
graph state is returned untouched (no upsert happens). -/
theorem claim_C3_chapter_contiguity (doc : String) (g : Graph)
    (chs : List ChapterRec) :
    (ChapInv g → ∀ e, extractFromDoc doc = .ok e → ChapInv (upsert e g))
    ∧ ChapInv emptyGraph
    ∧ (parseChapters (docLines doc) = .ok chs →
        chs.map (fun c => c.number) ≠ List.range' 1 chs.length →
        runPipelineState doc g =
          (g, .error (.ParseError "chapter numbers are not contiguous from 1"))) := by
  refine ⟨?_, ?_, ?_⟩
  · intro hinv e hex t
    by_cases ht : t = e.game
    · subst ht
      rw [chapterNumbersOf_upsert_self, extractFromDoc_ok_contig hex,
        List.length_range']
    · rw [chapterNumbersOf_upsert_other e g ht]
      exact hinv t
  · intro t
    rfl
  · intro hparse hgap
    have hcond : ¬ ((normalizeExt (rawFromDoc doc chs)).chapters.map
        (fun c => c.number) =
        List.range' 1 (normalizeExt (rawFromDoc doc chs)).chapters.length) := by
      rw [normalizeExt_chapter_numbers, normalizeExt_chapters_length]
      exact hgap
    have hcc : checkContiguity (normalizeExt (rawFromDoc doc chs)) =
        .error (.ParseError "chapter numbers are not contiguous from 1") := by
      rw [checkContiguity, if_neg hcond]
    have hx : extractFromDoc doc =
        .error (.ParseError "chapter numbers are not contiguous from 1") := by
      simp only [extractFromDoc, hparse, hcc]
    rw [runPipelineState, hx]

theorem claim_C3_witness :
    ChapInv (upsert eW emptyGraph) ∧
      runPipelineState docGap emptyGraph =
        (emptyGraph, .error (.ParseError "chapter numbers are not contiguous from 1")) :=
  ⟨(claim_C3_chapter_contiguity docW emptyGraph []).1
      (claim_C3_chapter_contiguity docW emptyGraph []).2.1 eW (by rfl),
    (claim_C3_chapter_contiguity docGap emptyGraph chsGap).2.2 (by rfl) (by decide)⟩

theorem filter_filter_of {α : Type} {p q : α → Bool} :
    ∀ {l : List α}, (∀ a ∈ l, q a = false → p a = false) →
      (l.filter q).filter p = l.filter p := by
  intro l
  induction l with
  | nil => intro _; rfl
  | cons a as ih =>
    intro h
    rw [List.filter_cons]
    cases hq : q a
    · rw [if_neg (by simp)]
      rw [ih (fun x hx => h x (List.mem_cons_of_mem a hx)), List.filter_cons,
        h a (List.mem_cons_self _ _) hq]
      rw [if_neg (by simp)]
    · rw [if_pos rfl]
      rw [List.filter_cons, List.filter_cons]
      cases hp : p a
      · rw [if_neg (by simp), if_neg (by simp)]
        exact ih (fun x hx => h x (List.mem_cons_of_mem a hx))
      · rw [if_pos rfl, if_pos rfl, ih (fun x hx => h x (List.mem_cons_of_mem a hx))]

theorem count_filter_eq_of_nodup {α : Type} [DecidableEq α] :
    ∀ {l : List α}, l.Nodup → ∀ a : α,
      ((l.filter (fun x => decide (x = a))).length ≤ 1 ∧
        (a ∈ l → (l.filter (fun x => decide (x = a))).length = 1)) := by
  intro l
  induction l with
  | nil => intro _ a; exact ⟨Nat.zero_le 1, fun h => absurd h (List.not_mem_nil a)⟩
  | cons b bs ih =>
    intro hnd a
    rw [List.nodup_cons] at hnd
    by_cases hba : b = a
    · subst hba
      have hz : bs.filter (fun x => decide (x = b)) = [] :=
        filter_none (fun x hx => by
          refine bool_eq_false (fun hb => hnd.1 ?_)
          simp only [decide_eq_true_eq] at hb
          rw [← hb]
          exact hx)
      rw [List.filter_cons, if_pos (by simp)]
      rw [hz]
      exact ⟨Nat.le_refl 1, fun _ => rfl⟩
    · rw [List.filter_cons, if_neg (by simp [hba])]
      refine ⟨(ih hnd.2 a).1, fun hmem => ?_⟩
      rcases List.mem_cons.1 hmem with rfl | hmem
      · exact absurd rfl hba
      · exact (ih hnd.2 a).2 hmem

theorem merged_char_filter_length (l : List CharacterRec) (prev : List Node)
    (game nm : String) :
    ((l.map (mergeChar prev game)).filter
      (fun n => decide (n.id = charId game nm))).length =
      ((l.map (fun c => c.name)).filter (fun x => decide (x = nm))).length := by
  induction l with
  | nil => rfl
  | cons c cs ih =>
    rw [List.map_cons, List.map_cons, List.filter_cons, List.filter_cons]
    by_cases hc : c.name = nm
    · rw [if_pos (by simp [mergeChar, charId, hc]), if_pos (by simp [hc])]
      rw [List.length_cons, List.length_cons, ih]
    · rw [if_neg (by simp [mergeChar, charId, hc]), if_neg (by simp [hc])]
      exact ih

theorem charCount_nodes_append (l₁ l₂ : List Node) (game nm : String) :
    ((l₁ ++ l₂).filter (fun n => decide (n.id = charId game nm))).length =
      (l₁.filter (fun n => decide (n.id = charId game nm))).length +
        (l₂.filter (fun n => decide (n.id = charId game nm))).length := by
  rw [List.filter_append, List.length_append]

theorem charPred_false_of_game {game nm : String} {n : Node}
    (h : n.id.gameOf ≠ game) : decide (n.id = charId game nm) = false := by
  refine bool_eq_false (fun hb => ?_)
  simp only [decide_eq_true_eq] at hb
  exact h (by rw [hb]; rfl)

theorem charCount_upsert_other (e : ExtractionResult) (g : Graph)
    {game : String} (nm : String) (h : game ≠ e.game) :
    charCount (upsert e g) game nm = charCount g game nm := by
  rw [charCount, upsert_nodes, upsertNodes, charCount_nodes_append]
  have h1 : (newGameNodes e g).filter (fun n => decide (n.id = charId game nm)) = [] :=
    filter_none (fun n hn =>
      charPred_false_of_game (by
        rw [mem_newGameNodes_gameOf hn]
        exact fun hx => h hx.symm))
  have h2 : (g.nodes.filter (fun n => decide (n.id.gameOf ≠ e.game))).filter
      (fun n => decide (n.id = charId game nm)) =
      g.nodes.filter (fun n => decide (n.id = charId game nm)) :=
    filter_filter_of (fun n _ hq => by
      refine charPred_false_of_game ?_
      have hgame : n.id.gameOf = e.game := by
        by_cases hx : n.id.gameOf = e.game
        · exact hx
        · rw [decide_eq_true hx] at hq
          cases hq
      rw [hgame]
      exact fun hx => h hx.symm)
  rw [h1, h2]
  simp [charCount]

theorem charCount_upsert_self_le (e : ExtractionResult) (g : Graph) (nm : String)
    (hU : CharUnique g) :
    charCount (upsert e g) e.game nm ≤ 1 ∧
      (nm ∈ mentionedCharNames e → charCount (upsert e g) e.game nm = 1) := by
  rw [charCount, upsert_nodes, upsertNodes, charCount_nodes_append]
  have h0 : (g.nodes.filter (fun n => decide (n.id.gameOf ≠ e.game))).filter
      (fun n => decide (n.id = charId e.game nm)) = [] :=
    filter_none (fun n hn =>
      charPred_false_of_game (by
        have := (List.mem_filter.1 hn).2
        simpa using this))
  rw [h0]
  rw [newGameNodes, charCount_nodes_append, charCount_nodes_append,
    charCount_nodes_append]
  have hg : ([gameNodeAfter e g.nodes].filter
      (fun n => decide (n.id = charId e.game nm))) = [] :=
    filter_none (fun n hn => by
      rcases List.mem_singleton.1 hn with rfl
      rfl)
  have hch : (chapterNodes e.game e.chapters).filter
      (fun n => decide (n.id = charId e.game nm)) = [] :=
    filter_none (fun n hn => by
      refine bool_eq_false (fun hb => ?_)
      simp only [decide_eq_true_eq] at hb
      have hfalse := (mem_chapterNodes_facts hn).2.2 e.game
      have htrue : isCharNode e.game n = true := (isCharNode_iff e.game n).2 ⟨nm, hb⟩
      rw [hfalse] at htrue
      cases htrue)
  have hloc : (locNodesAfter e (prevLocsOf e g)).filter
      (fun n => decide (n.id = charId e.game nm)) = [] :=
    filter_none (fun n hn => by
      rcases (isLocNode_iff e.game n).1
        (mem_locNodesAfter_isLoc (prevLocsOf_isLoc e g) n hn) with ⟨x, hid⟩
      simp [hid, charId])
  rw [hg, hch, hloc]
  rw [charNodesAfter, charCount_nodes_append, merged_char_filter_length]
  by_cases hmem : nm ∈ (dedupChars e).map (fun c => c.name)
  · have hkept : ((prevCharsOf e g).filter (fun n => decide (n.id ∉ charKeys e))).filter
        (fun n => decide (n.id = charId e.game nm)) = [] :=
      filter_none (fun n hn => by
        refine bool_eq_false (fun hb => ?_)
        simp only [decide_eq_true_eq] at hb
        have h2 := (List.mem_filter.1 hn).2
        simp only [decide_eq_true_eq] at h2
        refine h2 ?_
        rw [hb, charKeys]
        rcases List.mem_map.1 hmem with ⟨c, hcm, hcn⟩
        refine List.mem_map.2 ⟨c, hcm, ?_⟩
        rw [hcn])
    have hone : (((dedupChars e).map (fun c => c.name)).filter
        (fun x => decide (x = nm))).length = 1 :=
      (count_filter_eq_of_nodup (dedupChars_names_nodup e) nm).2 hmem
    rw [hkept, hone]
    exact ⟨Nat.le_refl 1, fun _ => rfl⟩
  · have hzero : (((dedupChars e).map (fun c => c.name)).filter
        (fun x => decide (x = nm))).length = 0 := by
      rw [filter_none (fun x hx => by
        refine bool_eq_false (fun hb => ?_)
        simp only [decide_eq_true_eq] at hb
        exact hmem (hb ▸ hx))]
      rfl
    have hkeptle : (((prevCharsOf e g).filter
        (fun n => decide (n.id ∉ charKeys e))).filter
        (fun n => decide (n.id = charId e.game nm))).length ≤ 1 := by
      have hs1 : ((prevCharsOf e g).filter
          (fun n => decide (n.id ∉ charKeys e))).Sublist (prevCharsOf e g) :=
        List.filter_sublist _
      have hs2 : (prevCharsOf e g).Sublist g.nodes := List.filter_sublist _
      have hs : (((prevCharsOf e g).filter
          (fun n => decide (n.id ∉ charKeys e))).filter
          (fun n => decide (n.id = charId e.game nm))).Sublist
          (g.nodes.filter (fun n => decide (n.id = charId e.game nm))) :=
        List.Sublist.filter _ (hs1.trans hs2)
      exact Nat.le_trans hs.length_le (hU e.game nm)
    rw [hzero]
    constructor
    · simpa using hkeptle
    · intro hnm
      exfalso
      refine hmem ?_
      have : nm ∈ e.characters.map (fun c => c.name) := hnm
      exact dedupByKey_keys_mem this

/-- C4: character (and location) names are trimmed and case-folded before
node creation: the variants "Aren", "aren" and "AREN " all normalize to the
key "aren"; an upsert of a normalized extraction keeps at most one Character
node per (game, name) key, and every mentioned normalized name resolves to
exactly one Character node of the game. -/
theorem claim_C4_name_dedup (g : Graph) (e : ExtractionResult) (nm : String) :
    (normName "Aren" = "aren" ∧ normName "aren" = "aren" ∧ normName "AREN " = "aren")
    ∧ (CharUnique g → CharUnique (upsert (normalizeExt e) g))
    ∧ (CharUnique g → nm ∈ mentionedCharNames (normalizeExt e) →
        charCount (upsert (normalizeExt e) g) (normalizeExt e).game nm = 1) := by
  refine ⟨⟨by decide, by decide, by decide⟩, ?_, ?_⟩
  · intro hU game x
    by_cases hg : game = (normalizeExt e).game
    · subst hg
      exact (charCount_upsert_self_le (normalizeExt e) g x hU).1
    · rw [charCount_upsert_other (normalizeExt e) g x hg]
      exact hU game x
  · intro hU hmem
    exact (charCount_upsert_self_le (normalizeExt e) g nm hU).2 hmem

theorem claim_C4_witness :
    charCount (upsert (normalizeExt sampleExtChar) emptyGraph)
      (normalizeExt sampleExtChar).game "aren" = 1 :=
  (claim_C4_name_dedup emptyGraph sampleExtChar "aren").2.2
    (fun game x => by simp [charCount, emptyGraph]) (by decide)

theorem validateSchema_error_is_schema (resp : LLMResponse) (er : PipelineError)
    (h : validateSchema resp = .error er) : ∃ msg, er = .ExtractionSchemaError msg := by
  cases resp with
  | invalidJson =>
    rw [validateSchema] at h
    injection h with h1
    exact ⟨_, h1.symm⟩
  | json r =>
    rw [validateSchema] at h
    split at h
    · split at h
      · cases h
      · injection h with h1
        exact ⟨_, h1.symm⟩
    · injection h with h1
      exact ⟨_, h1.symm⟩

/-- C5: the Entity Extractor's bounded retry — the attempt count is at most
2; a valid first response is accepted (normalized) after 1 attempt; after a
schema failure exactly one repair retry happens; two schema failures surface
the error after exactly 2 attempts; every validation error is an
`ExtractionSchemaError`; and a failed extraction leaves the graph store
untouched. -/
theorem claim_C5_extractor_bounded_retry (oracle : Nat → LLMResponse) (g : Graph) :
    ((extractWithRetry oracle).2 ≤ 2)
    ∧ (∀ r, validateSchema (oracle 0) = .ok r →
        extractWithRetry oracle = (.ok (normalizeExt r), 1))
    ∧ (∀ er r, validateSchema (oracle 0) = .error er →
        validateSchema (oracle 1) = .ok r →
        extractWithRetry oracle = (.ok (normalizeExt r), 2))
    ∧ (∀ er er', validateSchema (oracle 0) = .error er →
        validateSchema (oracle 1) = .error er' →
        extractWithRetry oracle = (.error er', 2) ∧
          ∃ msg, er' = .ExtractionSchemaError msg)
    ∧ (∀ er k, extractWithRetry oracle = (.error er, k) →
        runLLMPipelineState oracle g = (g, .error er, k)) := by
  refine ⟨?_, ?_, ?_, ?_, ?_⟩
  · rw [extractWithRetry]
    cases validateSchema (oracle 0)
    · cases validateSchema (oracle 1)
      · exact Nat.le_refl 2
      · exact Nat.le_refl 2
    · exact Nat.le_succ 1
  · intro r h
    rw [extractWithRetry, h]
  · intro er r h0 h1
    rw [extractWithRetry, h0, h1]
  · intro er er' h0 h1
    refine ⟨by rw [extractWithRetry, h0, h1], ?_⟩
    exact validateSchema_error_is_schema _ _ h1
  · intro er k h
    rw [runLLMPipelineState, h]

theorem claim_C5_witness :
    extractWithRetry (fun _ => LLMResponse.invalidJson) =
      (.error (.ExtractionSchemaError "truncated or unparseable JSON"), 2) :=
  ((claim_C5_extractor_bounded_retry (fun _ => LLMResponse.invalidJson)
      emptyGraph).2.2.2.1 _ _ rfl rfl).1

theorem insertByNumDesc_length (x : Nat × NodeId) :
    ∀ l : List (Nat × NodeId), (insertByNumDesc x l).length = l.length + 1 := by
  intro l
  induction l with
  | nil => rfl
  | cons y ys ih =>
    rw [insertByNumDesc]
    by_cases h : y.1 ≤ x.1
    · rw [if_pos h]
      rfl
    · rw [if_neg h, List.length_cons, ih, List.length_cons]

theorem sortByNumDesc_length :
    ∀ l : List (Nat × NodeId), (sortByNumDesc l).length = l.length := by
  intro l
  induction l with
  | nil => rfl
  | cons x xs ih =>
    rw [sortByNumDesc, insertByNumDesc_length, ih, List.length_cons]

theorem recentChapters_length (g : Graph) (game : String) :
    (recentChapters g game).length = (chapterNumNodes g game).length := by
  rw [recentChapters, List.length_map, sortByNumDesc_length]

/-- C6: retrieval fallback and bundle cap — when no harvested entity name of
the update request matches a Character or Location node of the game, the
Retriever returns the recency fallback (the most recent chapters) and that
bundle is non-empty whenever the game has any chapter; in every case the
bundle size is at most the fixed maximum of 20 items. -/
theorem claim_C6_retrieval_fallback (request game : String) (g : Graph) :
    (matchedIds request game g = [] →
      retrieve request game g = (recentChapters g game).take maxBundleItems ∧
        (chapterNumNodes g game ≠ [] → retrieve request game g ≠ []))
    ∧ (retrieve request game g).length ≤ maxBundleItems
    ∧ maxBundleItems = 20 := by
  refine ⟨?_, ?_, rfl⟩
  · intro hm
    have hfall : retrieve request game g = (recentChapters g game).take maxBundleItems := by
      rw [retrieve, hm]
      rfl
    refine ⟨hfall, fun hne => ?_⟩
    have hlen : 0 < (chapterNumNodes g game).length := List.length_pos.2 hne
    have h1 : 0 < (retrieve request game g).length := by
      rw [hfall, List.length_take, recentChapters_length]
      have : (0 : Nat) < maxBundleItems := by decide
      exact lt_min this hlen
    exact List.ne_nil_of_length_pos h1
  · rw [retrieve]
    by_cases hm : (matchedIds request game g).isEmpty
    · rw [if_pos hm]
      exact List.length_take_le _ _
    · rw [if_neg hm]
      exact List.length_take_le _ _

theorem claim_C6_witness :
    retrieve "zzzz" "sg" (upsert sampleExt2 emptyGraph) ≠ [] :=
  ((claim_C6_retrieval_fallback "zzzz" "sg" (upsert sampleExt2 emptyGraph)).1
      (by decide)).2 (by decide)

theorem addItem_head (c : ChapterRec) (sec : PSect) (item : String) :
    ((addItem c sec item).number, (addItem c sec item).title) = (c.number, c.title) := by
  cases sec <;> rfl

theorem pstep_heads_of_heading {s : PState} {l : String} {s₁ : PState}
    {n : Nat} {t : String} (hh : parseChapterHeading? l = some (n, t))
    (hp : pstep s l = .ok s₁) :
    pstateHeads s₁ = pstateHeads s ++ [(n, t)] := by
  rw [pstep, hh] at hp
  injection hp with h1
  rw [← h1, pstateHeads, pstateHeads]
  simp [List.map_append]

theorem pstep_heads_of_other {s : PState} {l : String} {s₁ : PState}
    (hh : parseChapterHeading? l = none) (hp : pstep s l = .ok s₁) :
    pstateHeads s₁ = pstateHeads s := by
  rw [pstep] at hp
  split at hp
  · rename_i n t heq
    rw [hh] at heq
    cases heq
  · split at hp
    · split at hp
      · cases hp
      · injection hp with h1
        rw [← h1]
        rfl
    · split at hp
      · injection hp with h1
        rw [← h1]
        rfl
      · split at hp
        · split at hp
          · injection hp with h1
            rw [← h1]
          · rename_i c hcur
            injection hp with h1
            rw [← h1, pstateHeads, pstateHeads, hcur]
            simp only [Option.toList_some, List.map_append, List.map_cons, List.map_nil]
            rw [addItem_head]
        · split at hp
          · injection hp with h1
            rw [← h1]
          · rename_i c hcur
            injection hp with h1
            rw [← h1, pstateHeads, pstateHeads, hcur]
            simp only [Option.toList_some, List.map_append, List.map_cons, List.map_nil]

theorem pstep_error_is_parse {s : PState} {l : String} {er : PipelineError}
    (h : pstep s l = .error er) : ∃ msg, er = .ParseError msg := by
  rw [pstep] at h
  split at h
  · cases h
  · split at h
    · split at h
      · injection h with h1
        exact ⟨_, h1.symm⟩
      · cases h
    · split at h
      · cases h
      · split at h
        · split at h <;> cases h
        · split at h <;> cases h

theorem prun_heads : ∀ (ls : List String) (s s' : PState), prun s ls = .ok s' →
    pstateHeads s' = pstateHeads s ++ ls.filterMap parseChapterHeading? := by
  intro ls
  induction ls with
  | nil =>
    intro s s' h
    injection h with h1
    rw [h1]
    simp
  | cons l ls ih =>
    intro s s' h
    rw [prun] at h
    cases hp : pstep s l with
    | error er => rw [hp] at h; cases h
    | ok s₁ =>
      rw [hp] at h
      have hrec := ih s₁ s' h
      rw [List.filterMap_cons]
      cases hh : parseChapterHeading? l with
      | none =>
        rw [hrec, pstep_heads_of_other hh hp]
      | some nt =>
        rcases nt with ⟨n, t⟩
        rw [hrec, pstep_heads_of_heading hh hp, List.append_assoc]
        rfl

theorem prun_error_is_parse : ∀ (ls : List String) (s : PState) (er : PipelineError),
    prun s ls = .error er → ∃ msg, er = .ParseError msg := by
  intro ls
  induction ls with
  | nil => intro s er h; cases h
  | cons l ls ih =>
    intro s er h
    rw [prun] at h
    cases hp : pstep s l with
    | error er' =>
      rw [hp] at h
      injection h with h1
      rw [← h1]
      exact pstep_error_is_parse hp
    | ok s₁ =>
      rw [hp] at h
      exact ih s₁ er h

theorem parseChapters_ok_heads {lines : List String} {chs : List ChapterRec}
    (h : parseChapters lines = .ok chs) :
    chs.map (fun c => (c.number, c.title)) = lines.filterMap parseChapterHeading? := by
  rw [parseChapters] at h
  split at h
  · cases h
  · rename_i s hr
    split at h
    · cases h
    · injection h with h1
      have hh := prun_heads lines _ s hr
      rw [← h1]
      rw [show (s.done ++ s.cur.toList).map (fun c => (c.number, c.title)) =
        pstateHeads s from rfl, hh]
      rfl

theorem parseChapters_no_marker {lines : List String}
    (h : lines.filterMap parseChapterHeading? = []) :
    ∃ msg, parseChapters lines = .error (.ParseError msg) := by
  cases hr : prun ⟨[], none, .noneS⟩ lines with
  | error er =>
    rcases prun_error_is_parse lines _ er hr with ⟨msg, rfl⟩
    exact ⟨msg, by simp only [parseChapters, hr]⟩
  | ok s =>
    have hh := prun_heads lines _ s hr
    rw [h] at hh
    have hmapnil : (s.done ++ s.cur.toList).map (fun c => (c.number, c.title)) = [] := by
      rw [show (s.done ++ s.cur.toList).map (fun c => (c.number, c.title)) =
        pstateHeads s from rfl, hh]
      rfl
    have hemp : (s.done ++ s.cur.toList) = [] := List.map_eq_nil_iff.1 hmapnil
    refine ⟨"no chapter markers found", ?_⟩
    simp only [parseChapters, hr]
    rw [if_pos (by rw [hemp]; rfl)]

/-- C7: the Document Parser recognizes every heading of the marker form
`#### Chapter N: <title>` and produces the chapter records in document
order — the (number, title) heads of a successful parse are exactly the
recognized headings of the document's lines, in order — and a document with
no such chapter marker fails with a `ParseError`. -/
theorem claim_C7_parser_headings (doc : String) (chs : List ChapterRec) :
    (parseChapters (docLines doc) = .ok chs →
      chs.map (fun c => (c.number, c.title)) =
        (docLines doc).filterMap parseChapterHeading?)
    ∧ ((docLines doc).filterMap parseChapterHeading? = [] →
      ∃ msg, parseChapters (docLines doc) = .error (.ParseError msg))
    ∧ parseChapterHeading? "#### Chapter 7: The Mine" = some (7, "The Mine") :=
  ⟨parseChapters_ok_heads, parseChapters_no_marker, by decide⟩

theorem claim_C7_witness :
    ∃ msg, parseChapters (docLines "plain text only") = .error (.ParseError msg) :=
  (claim_C7_parser_headings "plain text only" []).2.1 (by decide)

end GameDesign
